import Mathlib

/-!
Verification of the RepoPilot streamed-answer consumer
(`frontend/src/hooks/useStreamResponse.ts`) and of the chunker contract from
the design document.

Strings from the JavaScript side are modelled as `List Char` (sequences of
Unicode code points); byte streams as `List Nat` with values below 256.
`JSON.parse` is modelled by an executable recursive-descent parser over the
JSON grammar, fallible code by `Option`.
-/

/-- A JSON value, as produced by `JSON.parse`.  Number tokens are kept as
their raw character text: the consumer never computes with numeric values,
it only stores and compares them structurally. -/
inductive Json where
  | null : Json
  | bool (b : Bool) : Json
  | num (raw : List Char) : Json
  | str (s : List Char) : Json
  | arr (items : List Json) : Json
  | obj (fields : List (List Char × Json)) : Json

mutual

/-- Structural equality of JSON values. -/
def Json.beq : Json → Json → Bool
  | .null, .null => true
  | .bool a, .bool b => a = b
  | .num a, .num b => a = b
  | .str a, .str b => a = b
  | .arr a, .arr b => Json.beqItems a b
  | .obj a, .obj b => Json.beqFields a b
  | _, _ => false

/-- Structural equality of JSON value lists. -/
def Json.beqItems : List Json → List Json → Bool
  | [], [] => true
  | a :: as, b :: bs => Json.beq a b && Json.beqItems as bs
  | _, _ => false

/-- Structural equality of JSON object member lists. -/
def Json.beqFields : List (List Char × Json) → List (List Char × Json) → Bool
  | [], [] => true
  | (k, v) :: as, (k', v') :: bs => k = k' && Json.beq v v' && Json.beqFields as bs
  | _, _ => false

end

mutual

theorem Json.beq_iff : ∀ a b : Json, Json.beq a b = true ↔ a = b
  | .null, b => by cases b <;> simp [Json.beq]
  | .bool a, b => by cases b <;> simp [Json.beq]
  | .num a, b => by cases b <;> simp [Json.beq]
  | .str a, b => by cases b <;> simp [Json.beq]
  | .arr a, b => by
    cases b <;> simp [Json.beq]
    exact Json.beqItems_iff a _
  | .obj a, b => by
    cases b <;> simp [Json.beq]
    exact Json.beqFields_iff a _

theorem Json.beqItems_iff : ∀ a b : List Json, Json.beqItems a b = true ↔ a = b
  | [], b => by cases b <;> simp [Json.beqItems]
  | a :: as, [] => by simp [Json.beqItems]
  | a :: as, b :: bs => by
    simp [Json.beqItems, Json.beq_iff a b, Json.beqItems_iff as bs]

theorem Json.beqFields_iff : ∀ a b : List (List Char × Json),
    Json.beqFields a b = true ↔ a = b
  | [], b => by cases b <;> simp [Json.beqFields]
  | a :: as, [] => by simp [Json.beqFields]
  | (k, v) :: as, (k', v') :: bs => by
    simp [Json.beqFields, Json.beq_iff v v', Json.beqFields_iff as bs, and_assoc]

end

instance : DecidableEq Json := fun a b =>
  decidable_of_iff _ (Json.beq_iff a b)

/-- JSON insignificant whitespace (RFC 8259: space, tab, line feed, carriage
return). -/
def isJsonWs (c : Char) : Bool :=
  c = ' ' || c = '\t' || c = '\n' || c = '\r'

/-- Skip JSON insignificant whitespace. -/
def skipWs (s : List Char) : List Char :=
  s.dropWhile isJsonWs

/-- Value of one hexadecimal digit. -/
def hexVal (c : Char) : Option Nat :=
  if '0' ≤ c ∧ c ≤ '9' then some (c.toNat - '0'.toNat)
  else if 'a' ≤ c ∧ c ≤ 'f' then some (c.toNat - 'a'.toNat + 10)
  else if 'A' ≤ c ∧ c ≤ 'F' then some (c.toNat - 'A'.toNat + 10)
  else none

/-- The single-character JSON string escapes. -/
def unescapeChar (c : Char) : Option Char :=
  if c = '"' then some '"'
  else if c = '\\' then some '\\'
  else if c = '/' then some '/'
  else if c = 'b' then some '\x08'
  else if c = 'f' then some '\x0c'
  else if c = 'n' then some '\n'
  else if c = 'r' then some '\r'
  else if c = 't' then some '\t'
  else none

/-- Parse the body of a JSON string after its opening quote.  Returns the
decoded characters and the input following the closing quote.  Raw control
characters are rejected, as by `JSON.parse`. -/
def parseStringBody : List Char → Option (List Char × List Char)
  | [] => none
  | c :: rest =>
    if c = '"' then some ([], rest)
    else if c = '\\' then
      match rest with
      | 'u' :: a :: b :: c' :: d :: rest' => do
        let ha ← hexVal a
        let hb ← hexVal b
        let hc ← hexVal c'
        let hd ← hexVal d
        let (s, r) ← parseStringBody rest'
        some (Char.ofNat (((ha * 16 + hb) * 16 + hc) * 16 + hd) :: s, r)
      | e :: rest' => do
        let c2 ← unescapeChar e
        let (s, r) ← parseStringBody rest'
        some (c2 :: s, r)
      | [] => none
    else if c.toNat < 0x20 then none
    else do
      let (s, r) ← parseStringBody rest
      some (c :: s, r)

/-- Decimal digit test for JSON number tokens. -/
def isDigitCh (c : Char) : Bool := '0' ≤ c && c ≤ '9'

/-- Append one or more digits to the raw token `acc`; fails when the input
does not start with a digit. -/
def parseDigits1 (acc : List Char) (s : List Char) : Option (List Char × List Char) :=
  match s.takeWhile isDigitCh with
  | [] => none
  | ds => some (acc ++ ds, s.dropWhile isDigitCh)

/-- Parse the optional exponent of a JSON number, extending the raw token
`acc`. -/
def parseExpPart (acc : List Char) (s : List Char) : Option (List Char × List Char) :=
  match s with
  | [] => some (acc, [])
  | c :: r =>
    if c = 'e' ∨ c = 'E' then
      match r with
      | [] => none
      | c2 :: r2 =>
        if c2 = '+' ∨ c2 = '-' then parseDigits1 (acc ++ [c, c2]) r2
        else parseDigits1 (acc ++ [c]) r
    else some (acc, s)

/-- Parse the optional fraction then exponent of a JSON number. -/
def parseFracPart (acc : List Char) (s : List Char) : Option (List Char × List Char) :=
  match s with
  | [] => parseExpPart acc []
  | c :: r =>
    if c = '.' then
      match parseDigits1 (acc ++ ['.']) r with
      | none => none
      | some (acc2, s2) => parseExpPart acc2 s2
    else parseExpPart acc s

/-- Parse the integer part of a JSON number after the optional sign: a bare
zero or a nonzero digit followed by digits (no leading zeros, as by
`JSON.parse`). -/
def parseIntPart (sign : List Char) (c : Char) (r : List Char) :
    Option (List Char × List Char) :=
  if c = '0' then parseFracPart (sign ++ ['0']) r
  else if isDigitCh c then
    parseFracPart (sign ++ c :: r.takeWhile isDigitCh) (r.dropWhile isDigitCh)
  else none

/-- Parse a JSON number token, returning the raw token text and the rest of
the input. -/
def parseNumber (s : List Char) : Option (List Char × List Char) :=
  match s with
  | [] => none
  | c :: r =>
    if c = '-' then
      match r with
      | [] => none
      | c1 :: r1 => parseIntPart ['-'] c1 r1
    else parseIntPart [] c r

mutual

/-- Parse one JSON value.  `fuel` bounds the total number of recursive calls
among the parsing functions; `Json.parse` supplies `input.length + 1`, which
is enough for every input that the JSON grammar accepts (each recursive call
consumes at least one input character). -/
def parseValue : Nat → List Char → Option (Json × List Char)
  | 0, _ => none
  | f + 1, s =>
    match skipWs s with
    | [] => none
    | c :: r =>
      if c = '"' then (parseStringBody r).map fun p => (.str p.1, p.2)
      else if c = '[' then (parseArrayItems f r).map fun p => (.arr p.1, p.2)
      else if c = '{' then (parseObjectItems f r).map fun p => (.obj p.1, p.2)
      else if c = 'n' ∨ c = 't' ∨ c = 'f' then
        match c :: r with
        | 'n' :: 'u' :: 'l' :: 'l' :: r2 => some (.null, r2)
        | 't' :: 'r' :: 'u' :: 'e' :: r2 => some (.bool true, r2)
        | 'f' :: 'a' :: 'l' :: 's' :: 'e' :: r2 => some (.bool false, r2)
        | _ => none
      else (parseNumber (c :: r)).map fun p => (.num p.1, p.2)

/-- Parse the items of a JSON array after its opening bracket. -/
def parseArrayItems : Nat → List Char → Option (List Json × List Char)
  | 0, _ => none
  | f + 1, s =>
    match skipWs s with
    | [] => none
    | c :: r =>
      if c = ']' then some ([], r)
      else do
        let (v, rest) ← parseValue f (c :: r)
        let (vs, r2) ← parseArrayRest f rest
        some (v :: vs, r2)

/-- Parse the continuation of a JSON array after one item. -/
def parseArrayRest : Nat → List Char → Option (List Json × List Char)
  | 0, _ => none
  | f + 1, s =>
    match skipWs s with
    | [] => none
    | c :: r =>
      if c = ']' then some ([], r)
      else if c = ',' then do
        let (v, rest) ← parseValue f r
        let (vs, r2) ← parseArrayRest f rest
        some (v :: vs, r2)
      else none

/-- Parse one `"key": value` member of a JSON object. -/
def parseMember : Nat → List Char → Option ((List Char × Json) × List Char)
  | 0, _ => none
  | f + 1, s =>
    match skipWs s with
    | [] => none
    | c :: r =>
      if c = '"' then do
        let (k, rest) ← parseStringBody r
        match skipWs rest with
        | [] => none
        | c2 :: r2 =>
          if c2 = ':' then do
            let (v, rest2) ← parseValue f r2
            some ((k, v), rest2)
          else none
      else none

/-- Parse the members of a JSON object after its opening brace. -/
def parseObjectItems : Nat → List Char → Option (List (List Char × Json) × List Char)
  | 0, _ => none
  | f + 1, s =>
    match skipWs s with
    | [] => none
    | c :: r =>
      if c = '}' then some ([], r)
      else do
        let (kv, rest) ← parseMember f (c :: r)
        let (kvs, r2) ← parseObjectRest f rest
        some (kv :: kvs, r2)

/-- Parse the continuation of a JSON object after one member. -/
def parseObjectRest : Nat → List Char → Option (List (List Char × Json) × List Char)
  | 0, _ => none
  | f + 1, s =>
    match skipWs s with
    | [] => none
    | c :: r =>
      if c = '}' then some ([], r)
      else if c = ',' then do
        let (kv, rest) ← parseMember f r
        let (kvs, r2) ← parseObjectRest f rest
        some (kv :: kvs, r2)
      else none

end

/-- `JSON.parse`: parse a complete JSON text; any non-whitespace left over is
an error. -/
def Json.parse (s : List Char) : Option Json :=
  match parseValue (s.length + 1) s with
  | some (v, rest) => if skipWs rest = [] then some v else none
  | none => none

/-- Look up a property of a parsed JSON value, as JavaScript property access
on the result of `JSON.parse`: only objects have fields, and a duplicated key
keeps its last occurrence.  `none` models the JavaScript `undefined`. -/
def Json.getField (v : Json) (key : List Char) : Option Json :=
  match v with
  | .obj kvs => kvs.foldl (fun acc kv => if kv.1 = key then some kv.2 else acc) none
  | _ => none

mutual

/-- JavaScript string coercion of a value (as used by `+` on a string):
arrays join their displayed elements with commas, plain objects display as
`[object Object]`.  Number display is modelled by the raw token text. -/
def jsDisplay : Json → List Char
  | .null => "null".data
  | .bool true => "true".data
  | .bool false => "false".data
  | .num raw => raw
  | .str s => s
  | .arr xs => jsDisplayItems xs
  | .obj _ => "[object Object]".data

/-- Comma-joined display of array elements; `null` elements display empty. -/
def jsDisplayItems : List Json → List Char
  | [] => []
  | [Json.null] => []
  | [x] => jsDisplay x
  | Json.null :: xs => ',' :: jsDisplayItems xs
  | x :: xs => jsDisplay x ++ ',' :: jsDisplayItems xs

end

/-- JavaScript string coercion including `undefined` (modelled by `none`). -/
def jsToString : Option Json → List Char
  | none => "undefined".data
  | some v => jsDisplay v

/-- JavaScript truthiness of a parsed JSON value (for `err.detail || ...`).
A number is falsy exactly when its value is zero, i.e. when its mantissa has
no nonzero digit. -/
def jsTruthy : Json → Bool
  | .null => false
  | .bool b => b
  | .str s => s ≠ []
  | .num raw => (raw.takeWhile fun c => c ≠ 'e' ∧ c ≠ 'E').any fun c => '1' ≤ c ∧ c ≤ '9'
  | .arr _ => true
  | .obj _ => true

/-- The whitespace removed by JavaScript `String.prototype.trim`. -/
def isJsTrimWs (c : Char) : Bool :=
  c = ' ' || c = '\t' || c = '\n' || c = '\r' || c = '\x0b' || c = '\x0c' ||
  c.toNat = 0xA0 || c.toNat = 0x1680 || (0x2000 ≤ c.toNat && c.toNat ≤ 0x200A) ||
  c.toNat = 0x2028 || c.toNat = 0x2029 || c.toNat = 0x202F || c.toNat = 0x205F ||
  c.toNat = 0x3000 || c.toNat = 0xFEFF

/-- JavaScript `String.prototype.trim`. -/
def jsTrim (s : List Char) : List Char :=
  ((s.dropWhile isJsTrimWs).reverse.dropWhile isJsTrimWs).reverse

/-- The consumer state of `useStreamResponse` (`StreamState` in the source).
`sources` and `error` hold whatever value the dispatched record carried, as
the code stores `event.chunks` and `event.message` without validation;
`none` models `undefined`. -/
structure StreamState where
  sources : Option Json
  streamedText : List Char
  isStreaming : Bool
  error : Option Json
deriving DecidableEq

/-- The state installed at the start of every `query` invocation
(`setState({ sources: [], streamedText: "", isStreaming: true, error: null })`). -/
def resetState : StreamState :=
  { sources := some (.arr []), streamedText := [], isStreaming := true, error := some .null }

/-- `event.type === name` for a parsed record: strict equality is true only
when the `type` property is the given string. -/
def Json.typeIs (event : Json) (name : List Char) : Bool :=
  match event.getField "type".data with
  | some (.str s) => s = name
  | _ => false

/-- The dispatch on a successfully parsed record (lines 72-82 of the hook):
`some s'` when a `setState` fires with new state `s'`, `none` when the
record's type matches no branch and the state is untouched. -/
def eventEffect (s : StreamState) (event : Json) : Option StreamState :=
  if event.typeIs "sources".data then
    some { s with sources := event.getField "chunks".data }
  else if event.typeIs "token".data then
    some { s with streamedText := s.streamedText ++ jsToString (event.getField "content".data) }
  else if event.typeIs "error".data then
    some { s with error := event.getField "message".data }
  else none

/-- The consumer state after dispatching one parsed record. -/
def applyEvent (s : StreamState) (event : Json) : StreamState :=
  (eventEffect s event).getD s

/-- Handling of one complete line of the event stream (lines 64-85 of the
hook): lines without the `data: ` marker are discarded, the payload is the
line after the marker, trimmed; an empty payload is skipped, an unparseable
payload is skipped (the `catch` around `JSON.parse`), and otherwise the
record is dispatched.  `some s'` exactly when a `setState` fires. -/
def lineEffect (s : StreamState) (line : List Char) : Option StreamState :=
  if ¬ ("data: ".data.isPrefixOf line) then none
  else
    let json := jsTrim (line.drop 6)
    if json = [] then none
    else
      match Json.parse json with
      | none => none
      | some event => eventEffect s event

/-- The consumer state after handling one complete line. -/
def processLine (s : StreamState) (line : List Char) : StreamState :=
  (lineEffect s line).getD s

/-- The consumer state after handling a list of complete lines. -/
def processLines (s : StreamState) (lines : List (List Char)) : StreamState :=
  lines.foldl processLine s

/-- The states installed by the `setState` calls fired while handling a list
of complete lines, in order. -/
def linesStates (s : StreamState) : List (List Char) → List StreamState
  | [] => []
  | l :: ls =>
    match lineEffect s l with
    | none => linesStates s ls
    | some s' => s' :: linesStates s' ls

/-- JavaScript `buffer.split("\n")`: the list of segments of `s` between
newlines, always nonempty, with empty segments kept. -/
def splitOnNl : List Char → List (List Char)
  | [] => [[]]
  | c :: rest =>
    if c = '\n' then [] :: splitOnNl rest
    else
      match splitOnNl rest with
      | [] => [[c]]
      | p :: ps => (c :: p) :: ps

/-- State of the streaming `TextDecoder` (WHATWG UTF-8 decoder): the partial
code point, the count of continuation bytes still expected, the acceptance
range of the next byte, and whether a first code point has been produced
(for the leading-BOM removal done by `TextDecoder` by default). -/
structure DecoderState where
  codePoint : Nat
  bytesNeeded : Nat
  lowerBoundary : Nat
  upperBoundary : Nat
  firstDone : Bool
deriving DecidableEq

/-- A freshly constructed `TextDecoder`. -/
def freshDecoder : DecoderState :=
  { codePoint := 0, bytesNeeded := 0, lowerBoundary := 0x80, upperBoundary := 0xBF, firstDone := false }

/-- Decoder step on a byte when no continuation is pending.  Returns the new
state and the emitted code points (U+FFFD on error, as the non-fatal decoder
does). -/
def decodeStart (d : DecoderState) (b : Nat) : DecoderState × List Nat :=
  if b ≤ 0x7F then (d, [b])
  else if 0xC2 ≤ b ∧ b ≤ 0xDF then
    ({ d with codePoint := b - 0xC0, bytesNeeded := 1, lowerBoundary := 0x80, upperBoundary := 0xBF }, [])
  else if b = 0xE0 then
    ({ d with codePoint := 0, bytesNeeded := 2, lowerBoundary := 0xA0, upperBoundary := 0xBF }, [])
  else if b = 0xED then
    ({ d with codePoint := 0xD, bytesNeeded := 2, lowerBoundary := 0x80, upperBoundary := 0x9F }, [])
  else if 0xE1 ≤ b ∧ b ≤ 0xEF then
    ({ d with codePoint := b - 0xE0, bytesNeeded := 2, lowerBoundary := 0x80, upperBoundary := 0xBF }, [])
  else if b = 0xF0 then
    ({ d with codePoint := 0, bytesNeeded := 3, lowerBoundary := 0x90, upperBoundary := 0xBF }, [])
  else if b = 0xF4 then
    ({ d with codePoint := 4, bytesNeeded := 3, lowerBoundary := 0x80, upperBoundary := 0x8F }, [])
  else if 0xF1 ≤ b ∧ b ≤ 0xF3 then
    ({ d with codePoint := b - 0xF0, bytesNeeded := 3, lowerBoundary := 0x80, upperBoundary := 0xBF }, [])
  else (d, [0xFFFD])

/-- Decoder step on a byte when a continuation is pending: accept it into
the code point, or emit a replacement and reprocess the byte. -/
def decodeCont (d : DecoderState) (b : Nat) : DecoderState × List Nat :=
  if d.lowerBoundary ≤ b ∧ b ≤ d.upperBoundary then
    let cp := d.codePoint * 64 + (b - 0x80)
    if d.bytesNeeded = 1 then
      ({ d with codePoint := 0, bytesNeeded := 0, lowerBoundary := 0x80, upperBoundary := 0xBF }, [cp])
    else
      ({ d with codePoint := cp, bytesNeeded := d.bytesNeeded - 1, lowerBoundary := 0x80, upperBoundary := 0xBF }, [])
  else
    let d0 := { d with codePoint := 0, bytesNeeded := 0, lowerBoundary := 0x80, upperBoundary := 0xBF }
    let (d', out) := decodeStart d0 b
    (d', 0xFFFD :: out)

/-- One byte of streaming UTF-8 decoding, producing code points. -/
def decodeByteCp (d : DecoderState) (b : Nat) : DecoderState × List Nat :=
  if d.bytesNeeded = 0 then decodeStart d b else decodeCont d b

/-- Turn one decoded code point into output characters, removing a byte
order mark only when it is the stream's first code point. -/
def emitCp (d : DecoderState) (cp : Nat) : DecoderState × List Char :=
  if d.firstDone = false ∧ cp = 0xFEFF then ({ d with firstDone := true }, [])
  else ({ d with firstDone := true }, [Char.ofNat cp])

/-- Emit a list of decoded code points in order. -/
def emitCps : DecoderState → List Nat → DecoderState × List Char
  | d, [] => (d, [])
  | d, cp :: cps =>
    let (d1, out1) := emitCp d cp
    let (d2, out2) := emitCps d1 cps
    (d2, out1 ++ out2)

/-- One byte of streaming UTF-8 decoding, producing output characters. -/
def decodeByte (d : DecoderState) (b : Nat) : DecoderState × List Char :=
  let (d1, cps) := decodeByteCp d b
  emitCps d1 cps

/-- `decoder.decode(value, { stream: true })`: decode a fragment, keeping the
decoder state across fragments. -/
def decodeList : DecoderState → List Nat → DecoderState × List Char
  | d, [] => (d, [])
  | d, b :: bs =>
    let (d1, out1) := decodeByte d b
    let (d2, out2) := decodeList d1 bs
    (d2, out1 ++ out2)

/-- UTF-8 encoding of one character. -/
def utf8EncodeChar (c : Char) : List Nat :=
  let n := c.toNat
  if n < 0x80 then [n]
  else if n < 0x800 then [0xC0 + n / 64, 0x80 + n % 64]
  else if n < 0x10000 then [0xE0 + n / 4096, 0x80 + n / 64 % 64, 0x80 + n % 64]
  else [0xF0 + n / 0x40000, 0x80 + n / 4096 % 64, 0x80 + n / 64 % 64, 0x80 + n % 64]

/-- UTF-8 encoding of a character sequence. -/
def utf8Encode (s : List Char) : List Nat :=
  (s.map utf8EncodeChar).flatten

/-- The mutable state of the `query` read loop: the streaming decoder, the
held-back possibly incomplete line, and the consumer state. -/
structure LoopState where
  dec : DecoderState
  buffer : List Char
  state : StreamState
deriving DecidableEq

/-- One iteration of the read loop (lines 56-87 of the hook): decode the
fragment, append to the buffer, split on newlines, hold back the last
segment, and handle each complete line.  Also returns the states fired by
`setState` during the iteration. -/
def handleFragment (p : LoopState) (value : List Nat) : LoopState × List StreamState :=
  let (dec', chunk) := decodeList p.dec value
  let parts := splitOnNl (p.buffer ++ chunk)
  let buffer' := parts.getLastD []
  let lines := parts.dropLast
  (⟨dec', buffer', processLines p.state lines⟩, linesStates p.state lines)

/-- The read loop over a list of received fragments. -/
def runFragments : LoopState → List (List Nat) → LoopState × List StreamState
  | p, [] => (p, [])
  | p, v :: vs =>
    let (p1, st1) := handleFragment p v
    let (p2, st2) := runFragments p1 vs
    (p2, st1 ++ st2)

/-- How the byte stream of an OK response ends: a clean end of stream
(`done` from the reader), or a rejection of `reader.read()` carrying an
`Error` with a message (`none` models a thrown non-`Error` value). -/
inductive ReadEnd where
  | clean : ReadEnd
  | readThrow (msg : Option (List Char)) : ReadEnd

/-- The externally determined outcome of one `query` call: `fetch` itself
rejecting, a non-OK response (with the parsed JSON body if `res.json()`
succeeded, else the status text), an OK response without a body, or an OK
response delivering byte fragments and then ending. -/
inductive FetchResult where
  | fetchThrow (msg : Option (List Char)) : FetchResult
  | notOk (body : Option Json) (statusText : List Char) : FetchResult
  | noBody : FetchResult
  | ok (frags : List (List Nat)) (ending : ReadEnd) : FetchResult

/-- `err instanceof Error ? err.message : "Unknown error"`. -/
def exnMessage (msg : Option (List Char)) : List Char :=
  msg.getD "Unknown error".data

/-- The error value of the non-OK branch:
`(await res.json().catch(() => ({ detail: res.statusText }))).detail || "Request failed"`. -/
def notOkError (body : Option Json) (statusText : List Char) : Json :=
  let err := body.getD (.obj [("detail".data, .str statusText)])
  match err.getField "detail".data with
  | some v => if jsTruthy v then v else .str "Request failed".data
  | none => .str "Request failed".data

/-- The sequence of states installed by the `setState` calls of one
`query(repoId, question)` invocation, in order.  `prev` is the hook state
before the call; the first `setState` replaces it wholesale with
`resetState`, and the `finally` block fires on every path. -/
def querySetStates (prev : StreamState) (r : FetchResult) : List StreamState :=
  let s1 := resetState
  match r with
  | .fetchThrow msg =>
    let s2 := { s1 with error := some (.str (exnMessage msg)) }
    [s1, s2, { s2 with isStreaming := false }]
  | .notOk body statusText =>
    let s2 := { s1 with isStreaming := false, error := some (notOkError body statusText) }
    [s1, s2, { s2 with isStreaming := false }]
  | .noBody =>
    let s2 := { s1 with isStreaming := false, error := some (.str "No response stream".data) }
    [s1, s2, { s2 with isStreaming := false }]
  | .ok frags ending =>
    let (p, sts) := runFragments ⟨freshDecoder, [], s1⟩ frags
    match ending with
    | .clean => s1 :: sts ++ [{ p.state with isStreaming := false }]
    | .readThrow msg =>
      let s2 := { p.state with error := some (.str (exnMessage msg)) }
      s1 :: sts ++ [s2, { s2 with isStreaming := false }]

/-- The hook state after one `query` invocation completes. -/
def queryFinal (prev : StreamState) (r : FetchResult) : StreamState :=
  (querySetStates prev r).getLastD prev

/-- Lower-case hexadecimal digit. -/
def hexDigitCh (n : Nat) : Char :=
  if n < 10 then Char.ofNat ('0'.toNat + n) else Char.ofNat ('a'.toNat + n - 10)

/-- JSON string escaping of one character (the escapes emitted by standard
JSON serializers: quote, backslash, the short control escapes, and
`\u00XX` for the remaining control characters). -/
def escapeChar (c : Char) : List Char :=
  if c = '"' then ['\\', '"']
  else if c = '\\' then ['\\', '\\']
  else if c = '\x08' then ['\\', 'b']
  else if c = '\x0c' then ['\\', 'f']
  else if c = '\n' then ['\\', 'n']
  else if c = '\r' then ['\\', 'r']
  else if c = '\t' then ['\\', 't']
  else if c.toNat < 0x20 then
    ['\\', 'u', '0', '0', hexDigitCh (c.toNat / 16), hexDigitCh (c.toNat % 16)]
  else [c]

/-- JSON string escaping of a character sequence. -/
def escapeString (s : List Char) : List Char :=
  (s.map escapeChar).flatten

/-- Serialization of a JSON string with its quotes. -/
def renderString (s : List Char) : List Char :=
  '"' :: escapeString s ++ ['"']

mutual

/-- Serialization of a JSON value as JSON text (no insignificant
whitespace). -/
def Json.render : Json → List Char
  | .null => "null".data
  | .bool true => "true".data
  | .bool false => "false".data
  | .num raw => raw
  | .str s => renderString s
  | .arr xs => '[' :: Json.renderItems xs ++ [']']
  | .obj kvs => '{' :: Json.renderFields kvs ++ ['}']

/-- Comma-separated serialization of array items. -/
def Json.renderItems : List Json → List Char
  | [] => []
  | [x] => x.render
  | x :: xs => x.render ++ ',' :: Json.renderItems xs

/-- Comma-separated serialization of object members. -/
def Json.renderFields : List (List Char × Json) → List Char
  | [] => []
  | [(k, v)] => renderString k ++ ':' :: v.render
  | (k, v) :: kvs => renderString k ++ ':' :: v.render ++ ',' :: Json.renderFields kvs

end

/-- A well-formed exponent tail (after `e`/`E`): optional sign then one or
more digits. -/
def expTailWF (r : List Char) : Bool :=
  match r with
  | [] => false
  | c2 :: r2 =>
    let t := if c2 = '+' ∨ c2 = '-' then r2 else r
    t ≠ [] && t.all isDigitCh

/-- A well-formed optional exponent of a number token. -/
def expPartWF (s : List Char) : Bool :=
  match s with
  | [] => true
  | c :: r => if c = 'e' ∨ c = 'E' then expTailWF r else false

/-- Well-formedness of the part of a number token after the integer part:
an optional fraction then an optional exponent. -/
def fracExpWF (s : List Char) : Bool :=
  match s with
  | [] => true
  | c :: r =>
    if c = '.' then r.takeWhile isDigitCh ≠ [] && expPartWF (r.dropWhile isDigitCh)
    else expPartWF s

/-- Well-formedness of a number token after the optional sign: no leading
zeros, as emitted by JSON serializers and accepted by `JSON.parse`. -/
def intTailWF (s : List Char) : Bool :=
  match s with
  | [] => false
  | c :: r =>
    if c = '0' then fracExpWF r
    else isDigitCh c && fracExpWF (r.dropWhile isDigitCh)

/-- Well-formedness of a whole JSON number token. -/
def numTokenWF (s : List Char) : Bool :=
  match s with
  | [] => false
  | c :: r => if c = '-' then intTailWF r else intTailWF s

mutual

/-- Well-formed JSON values: every number holds a well-formed token, so the
value serializes to valid JSON text. -/
def Json.wf : Json → Bool
  | .null => true
  | .bool _ => true
  | .str _ => true
  | .num raw => numTokenWF raw
  | .arr xs => Json.wfItems xs
  | .obj kvs => Json.wfFields kvs

/-- Well-formedness of a list of JSON values. -/
def Json.wfItems : List Json → Bool
  | [] => true
  | x :: xs => x.wf && Json.wfItems xs

/-- Well-formedness of the values of an object member list. -/
def Json.wfFields : List (List Char × Json) → Bool
  | [] => true
  | (_, v) :: kvs => v.wf && Json.wfFields kvs

end

/-- The events of the wire protocol (§4.3, §6 of the design): a `sources`
record carrying chunk summaries, a `token` record carrying answer text, an
`error` record carrying a message, and the `done` terminal record. -/
inductive StreamEvent where
  | sources (chunks : List Json) : StreamEvent
  | token (content : List Char) : StreamEvent
  | error (message : List Char) : StreamEvent
  | done : StreamEvent

/-- Modelled from the spec: the structured record serialized for one event
by the Answer Stream Coordinator (backend not under src/), per §6: a `type`
field and the type-specific payload (`chunks`, `content`, `message`). -/
def recordJson : StreamEvent → Json
  | .sources chunks => .obj [("type".data, .str "sources".data), ("chunks".data, .arr chunks)]
  | .token content => .obj [("type".data, .str "token".data), ("content".data, .str content)]
  | .error message => .obj [("type".data, .str "error".data), ("message".data, .str message)]
  | .done => .obj [("type".data, .str "done".data)]

/-- Modelled from the spec: the wire form of one event, an event line
`data: <record>` followed by a blank line (§6). -/
def wireEvent (e : StreamEvent) : List Char :=
  "data: ".data ++ (recordJson e).render ++ ['\n', '\n']

/-- Modelled from the spec: the full wire byte-stream text of an event
sequence. -/
def wireStream (events : List StreamEvent) : List Char :=
  (events.map wireEvent).flatten

/-- Well-formedness of one event: chunk summaries must be well-formed JSON
values. -/
def eventWF : StreamEvent → Bool
  | .sources chunks => Json.wfItems chunks
  | _ => true

/-- Well-formedness of an event sequence. -/
def eventsWF (events : List StreamEvent) : Bool :=
  events.all eventWF

/-- The concatenation, in stream order, of the `content` fields of the
`token` records of an event sequence. -/
def tokensConcat : List StreamEvent → List Char
  | [] => []
  | .token content :: es => content ++ tokensConcat es
  | _ :: es => tokensConcat es

/-- The consumer state reached by dispatching an event sequence's records in
order. -/
def runEvents (s : StreamState) (events : List StreamEvent) : StreamState :=
  events.foldl (fun st e => applyEvent st (recordJson e)) s

/-- Chunker configuration (§4.1): the small-file threshold, the minimum-size
floor, the maximum-size ceiling, the fixed-window target size and the
overlap window, all in lines. -/
structure ChunkerConfig where
  smallFileThreshold : Nat
  minChunkLines : Nat
  maxChunkLines : Nat
  windowSize : Nat
  overlapLines : Nat

/-- A chunk of one source file (§3): 1-based inclusive line range and the
exact text of those lines. -/
structure Chunk where
  filename : List Char
  start_line : Nat
  end_line : Nat
  content : List (List Char)
  sequence_index : Nat

/-- Modelled from the spec: the 1-based indices of the lines matching the
language's definition-start pattern (§4.1 step 2); the Language Boundary
Table entry for the file's language is the predicate `isBoundaryLine`. -/
def boundaryLines (isBoundaryLine : List Char → Bool) (fileLines : List (List Char)) : List Nat :=
  ((List.range fileLines.length).filter fun i => isBoundaryLine (fileLines.getD i [])).map (· + 1)

/-- Modelled from the spec: the start lines of fixed windows of `w` lines
covering lines 1..n (§4.1 step 4). -/
def fixedCuts (n w : Nat) : List Nat :=
  (List.range ((n - 1) / max w 1 + 1)).map fun k => 1 + max w 1 * k

/-- Modelled from the spec: drop each cut whose preceding segment would fall
below the minimum-size floor `m`, merging consecutive short definitions
(§4.1 step 3); `k` is the start of the segment under construction. -/
def mergeShort (m : Nat) : Nat → List Nat → List Nat
  | _, [] => []
  | k, c :: cs => if c - k < m then mergeShort m k cs else c :: mergeShort m c cs

/-- Modelled from the spec: the extra cuts splitting a segment of `len`
lines starting at `k` into windows of `w` lines (§4.1 step 3). -/
def extraCuts (k len w : Nat) : List Nat :=
  (List.range ((len - 1) / max w 1)).map fun i => k + max w 1 * (i + 1)

/-- Modelled from the spec: insert window cuts into every segment exceeding
the maximum-size ceiling `ceil`; `n` is the file's last line (§4.1 step 3). -/
def splitLong (ceil w n : Nat) : List Nat → List Nat
  | [] => []
  | [k] => k :: (if n + 1 - k > ceil then extraCuts k (n + 1 - k) w else [])
  | k :: c :: cs =>
    (k :: (if c - k > ceil then extraCuts k (c - k) w else [])) ++ splitLong ceil w n (c :: cs)

/-- Modelled from the spec: turn a cut list into consecutive inclusive line
ranges, the last one ending at line `n` (§4.1 steps 2-4 produce a partition
of the file into consecutive segments). -/
def cutsToRanges (n : Nat) : List Nat → List (Nat × Nat)
  | [] => []
  | [k] => [(k, n)]
  | k :: c :: cs => (k, c - 1) :: cutsToRanges n (c :: cs)

/-- Modelled from the spec: extend every chunk after the first backwards by
the overlap window, clipped at the file start (§4.1 step 5). -/
def applyOverlap (ov : Nat) : List (Nat × Nat) → List (Nat × Nat)
  | [] => []
  | r :: rs => r :: rs.map fun se => (max (se.1 - ov) 1, se.2)

/-- Modelled from the spec: build the chunk records from the final ranges,
numbering them in emission order and slicing the content from the file's
lines (§4.1 step 6; `content` is exactly the text of lines
`start_line..end_line`). -/
def mkChunks (filename : List Char) (fileLines : List (List Char)) (idx : Nat) :
    List (Nat × Nat) → List Chunk
  | [] => []
  | (s, e) :: rs =>
    { filename := filename, start_line := s, end_line := e,
      content := (fileLines.drop (s - 1)).take (e + 1 - s), sequence_index := idx }
      :: mkChunks filename fileLines (idx + 1) rs

/-- Modelled from the spec: prepend-preserving merge stage — keep the first
cut and drop later cuts that would leave a segment below the floor (§4.1
step 3); a degenerate empty cut list yields the whole-file cut. -/
def mergeStage (m : Nat) : List Nat → List Nat
  | [] => [1]
  | k :: cs => k :: mergeShort m k cs

/-- Modelled from the spec: the Chunker (§4.1), absent from src/ (the
backend is not in the repository).  Empty file: no chunks.  A file below the
small-file threshold is one whole-file chunk.  Otherwise boundaries from the
Language Boundary Table give candidate split points starting at line 1 (or
fixed windows when no boundary is found), short segments are merged, long
segments are split into windows, ranges are derived, and the overlap window
is applied. -/
def chunkFile (isBoundaryLine : List Char → Bool) (cfg : ChunkerConfig)
    (filename : List Char) (fileLines : List (List Char)) : List Chunk :=
  let n := fileLines.length
  if n = 0 then []
  else if n < cfg.smallFileThreshold then
    mkChunks filename fileLines 0 [(1, n)]
  else
    let bps := (boundaryLines isBoundaryLine fileLines).filter (1 < ·)
    let cuts0 := if bps = [] then fixedCuts n cfg.windowSize else 1 :: bps
    let cuts1 := mergeStage cfg.minChunkLines cuts0
    let cuts2 := splitLong cfg.maxChunkLines cfg.windowSize n cuts1
    mkChunks filename fileLines 0 (applyOverlap cfg.overlapLines (cutsToRanges n cuts2))

/-- A rest-of-input whose head cannot extend a serialized JSON value: empty,
or starting with a separator or closing bracket. -/
def delimHead (r : List Char) : Bool :=
  match r with
  | [] => true
  | c :: _ => c = ',' || c = ']' || c = '}'

/-- The text of array items after the first: a comma before each item. -/
def itemsSep : List Json → List Char
  | [] => []
  | x :: xs => ',' :: x.render ++ itemsSep xs

/-- The text of object members after the first: a comma before each member. -/
def fieldsSep : List (List Char × Json) → List Char
  | [] => []
  | (k, v) :: kvs => ',' :: renderString k ++ ':' :: v.render ++ fieldsSep kvs

mutual

/-- A fuel amount sufficient for `parseValue` to parse the serialization of
a value. -/
def fuelNeed : Json → Nat
  | .arr xs => 1 + fuelItems xs
  | .obj kvs => 1 + fuelFields kvs
  | _ => 1

/-- Fuel sufficient for `parseArrayItems` on serialized items. -/
def fuelItems : List Json → Nat
  | [] => 1
  | x :: xs => 1 + max (fuelNeed x) (fuelRestItems xs)

/-- Fuel sufficient for `parseArrayRest` on serialized items. -/
def fuelRestItems : List Json → Nat
  | [] => 1
  | x :: xs => 1 + max (fuelNeed x) (fuelRestItems xs)

/-- Fuel sufficient for `parseObjectItems` on serialized members. -/
def fuelFields : List (List Char × Json) → Nat
  | [] => 1
  | (_, v) :: kvs => 1 + max (1 + fuelNeed v) (fuelRestFields kvs)

/-- Fuel sufficient for `parseObjectRest` on serialized members. -/
def fuelRestFields : List (List Char × Json) → Nat
  | [] => 1
  | (_, v) :: kvs => 1 + max (1 + fuelNeed v) (fuelRestFields kvs)

end

/-- One character of the read loop, seen at character granularity: a newline
completes the held-back line and handles it, any other character is appended
to the held-back line. -/
def lineStep (p : List Char × StreamState) (c : Char) : List Char × StreamState :=
  if c = '
' then ([], processLine p.2 p.1) else (p.1 ++ [c], p.2)

/-- The read loop seen at byte granularity: decode one byte, then run the
characters it produced through `lineStep`. -/
def byteStepL (p : LoopState) (b : Nat) : LoopState :=
  let (d2, out) := decodeByte p.dec b
  let bs := out.foldl lineStep (p.buffer, p.state)
  ⟨d2, bs.1, bs.2⟩

/-- The decoder state between whole decoded characters: nothing pending and
the first code point already produced. -/
def steadyDecoder : DecoderState :=
  { codePoint := 0, bytesNeeded := 0, lowerBoundary := 0x80, upperBoundary := 0xBF, firstDone := true }

/-- A concrete event sequence used to exercise the stream-reassembly theorem:
a sources record with two chunks, two token records whose contents contain
multi-byte characters, and the final done record. -/
def c1Events : List StreamEvent :=
  [.sources [Json.obj [("filename".data, .str "a.py".data), ("start_line".data, .num "1".data), ("end_line".data, .num "45".data), ("score".data, .num "0.87".data)], Json.obj [("filename".data, .str "b.py".data), ("score".data, .num "0.5".data)]], .token "The é".data, .token " answer ✓".data, .done]

/-- A fragmentation of the wire bytes of `c1Events` cut at offset 169, which
falls between the two bytes of the UTF-8 encoding of the character é. -/
def c1Frags : List (List Nat) :=
  [(utf8Encode (wireStream c1Events)).take 169, (utf8Encode (wireStream c1Events)).drop 169]

/-! ### Generic helper lemmas -/

theorem char_toNat_le {a b : Char} (h : a ≤ b) : a.toNat ≤ b.toNat := h

theorem char_eq_iff {a b : Char} : a = b ↔ a.toNat = b.toNat := by
  constructor
  · intro h; rw [h]
  · intro h
    exact Char.eq_of_val_eq (UInt32.eq_of_val_eq (Fin.eq_of_val_eq h))

theorem takeWhile_all_append {p : Char → Bool} {ds : List Char} (rest : List Char)
    (h : ∀ c ∈ ds, p c) : (ds ++ rest).takeWhile p = ds ++ rest.takeWhile p := by
  induction ds with
  | nil => simp
  | cons a as ih => simp_all [List.takeWhile_cons]

theorem dropWhile_all_append {p : Char → Bool} {ds : List Char} (rest : List Char)
    (h : ∀ c ∈ ds, p c) : (ds ++ rest).dropWhile p = rest.dropWhile p := by
  induction ds with
  | nil => simp
  | cons a as ih => simp_all [List.dropWhile_cons]

/-! ### Dispatch lemmas for the consumer -/

theorem typeIs_unique {e : Json} {a b : List Char} (ha : e.typeIs a = true)
    (hb : e.typeIs b = true) : a = b := by
  unfold Json.typeIs at ha hb
  cases h : e.getField "type".data with
  | none => rw [h] at ha; cases ha
  | some v =>
    rw [h] at ha hb
    cases v <;> simp_all

theorem applyEvent_sources {st : StreamState} {e : Json}
    (h : e.typeIs "sources".data = true) :
    applyEvent st e = { st with sources := e.getField "chunks".data } := by
  unfold applyEvent eventEffect
  rw [h]
  rfl

theorem applyEvent_token {st : StreamState} {e : Json}
    (h : e.typeIs "token".data = true) :
    applyEvent st e =
      { st with streamedText := st.streamedText ++ jsToString (e.getField "content".data) } := by
  unfold applyEvent eventEffect
  have hs : e.typeIs "sources".data = false := by
    cases hs : e.typeIs "sources".data
    · rfl
    · cases typeIs_unique h hs
  rw [h, hs]
  rfl

theorem applyEvent_error {st : StreamState} {e : Json}
    (h : e.typeIs "error".data = true) :
    applyEvent st e = { st with error := e.getField "message".data } := by
  unfold applyEvent eventEffect
  have hs : e.typeIs "sources".data = false := by
    cases hs : e.typeIs "sources".data
    · rfl
    · cases typeIs_unique h hs
  have ht : e.typeIs "token".data = false := by
    cases ht : e.typeIs "token".data
    · rfl
    · cases typeIs_unique h ht
  rw [h, hs, ht]
  rfl

theorem applyEvent_other {st : StreamState} {e : Json}
    (hs : e.typeIs "sources".data = false) (ht : e.typeIs "token".data = false)
    (he : e.typeIs "error".data = false) : applyEvent st e = st := by
  unfold applyEvent eventEffect
  rw [hs, ht, he]
  rfl

theorem processLine_no_marker {st : StreamState} {line : List Char}
    (h : ("data: ".data.isPrefixOf line) = false) : processLine st line = st := by
  unfold processLine lineEffect
  rw [h]
  rfl

theorem processLine_bad_json {st : StreamState} {line : List Char}
    (hbad : Json.parse (jsTrim (line.drop 6)) = none) : processLine st line = st := by
  unfold processLine lineEffect
  cases hp : ("data: ".data.isPrefixOf line)
  · simp
  · simp only [hbad]
    split <;> simp_all

theorem processLines_append (st : StreamState) (a b : List (List Char)) :
    processLines st (a ++ b) = processLines (processLines st a) b := by
  unfold processLines
  exact List.foldl_append _ _ _ _

/-! ### Claims C2, C4, C5, C6, C10 (line handling and dispatch) -/

/-- Claim C2, counterexample to the claim as stated: processing a parsed
record of type `done` performs no state update at all — in particular the
consumer state still has `isStreaming = true` afterwards, so the `done`
record itself does not mark completion. -/
theorem claim_C2_cex :
    processLine resetState ("data: \x7b\"type\":\"done\"\x7d".data) = resetState ∧
    resetState.isStreaming = true := by
  exact ⟨rfl, rfl⟩

/-- Claim C2, amended: when the Stream Consumer processes a complete,
successfully parsed record, the state update is determined by the record's
`type` field: `sources` replaces the current source list with the record's
`chunks`, `token` appends the record's `content` to the accumulated answer
text, `error` records the error message, and `done` leaves the state
unchanged (completion is marked only when the byte stream ends). -/
theorem claim_C2 (st : StreamState) (e : Json) :
    (e.typeIs "sources".data = true →
      applyEvent st e = { st with sources := e.getField "chunks".data }) ∧
    (e.typeIs "token".data = true →
      applyEvent st e =
        { st with streamedText := st.streamedText ++ jsToString (e.getField "content".data) }) ∧
    (e.typeIs "error".data = true →
      applyEvent st e = { st with error := e.getField "message".data }) ∧
    applyEvent st (recordJson .done) = st := by
  refine ⟨applyEvent_sources, applyEvent_token, applyEvent_error, ?_⟩
  exact applyEvent_other rfl rfl rfl

/-- Claim C2, witness: the amended theorem applied to a concrete token
record. -/
theorem claim_C2_witness :
    applyEvent resetState (recordJson (.token "Hi".data)) =
      { resetState with streamedText := "Hi".data } := by
  have h := (claim_C2 resetState (recordJson (.token "Hi".data))).2.1 rfl
  simpa using h

/-- Claim C4: a `data: `-prefixed line whose payload fails to parse is
skipped with the consumer state unchanged, and the rest of the lines are
processed exactly as if the malformed line were absent — one malformed event
line never aborts the stream. -/
theorem claim_C4 (st : StreamState) (line : List Char) (pre post : List (List Char))
    (hbad : Json.parse (jsTrim (line.drop 6)) = none) :
    processLine st line = st ∧
    processLines st (pre ++ line :: post) = processLines st (pre ++ post) := by
  refine ⟨processLine_bad_json hbad, ?_⟩
  rw [processLines_append, processLines_append]
  show processLines (processLine (processLines st pre) line) post = _
  rw [processLine_bad_json hbad]

/-- Claim C4, witness: a corrupted JSON payload in the middle of two token
lines leaves the surrounding processing unchanged. -/
theorem claim_C4_witness :
    processLine resetState ("data: \x7b\"type\":".data) = resetState ∧
    processLines resetState
        (["data: \x7b\"type\":\"token\",\"content\":\"a\"\x7d".data,
          "data: \x7b\"type\":".data,
          "data: \x7b\"type\":\"token\",\"content\":\"b\"\x7d".data]) =
      processLines resetState
        (["data: \x7b\"type\":\"token\",\"content\":\"a\"\x7d".data,
          "data: \x7b\"type\":\"token\",\"content\":\"b\"\x7d".data]) := by
  exact claim_C4 resetState ("data: \x7b\"type\":".data)
    ["data: \x7b\"type\":\"token\",\"content\":\"a\"\x7d".data]
    ["data: \x7b\"type\":\"token\",\"content\":\"b\"\x7d".data] rfl

/-- Claim C5: a complete line that does not start with the event-line marker
`data: ` is discarded silently — the whole consumer state (sources,
streamedText, error, isStreaming) is unchanged by it, and the remaining
lines are processed as if it were absent. -/
theorem claim_C5 (st : StreamState) (line : List Char) (pre post : List (List Char))
    (h : ("data: ".data.isPrefixOf line) = false) :
    processLine st line = st ∧
    processLines st (pre ++ line :: post) = processLines st (pre ++ post) := by
  refine ⟨processLine_no_marker h, ?_⟩
  rw [processLines_append, processLines_append]
  show processLines (processLine (processLines st pre) line) post = _
  rw [processLine_no_marker h]

/-- Claim C5, witness: a blank line between two event lines is ignored. -/
theorem claim_C5_witness :
    processLine resetState [] = resetState ∧
    processLines resetState
        (["data: \x7b\"type\":\"token\",\"content\":\"a\"\x7d".data, [],
          "data: \x7b\"type\":\"done\"\x7d".data]) =
      processLines resetState
        (["data: \x7b\"type\":\"token\",\"content\":\"a\"\x7d".data,
          "data: \x7b\"type\":\"done\"\x7d".data]) := by
  exact claim_C5 resetState []
    ["data: \x7b\"type\":\"token\",\"content\":\"a\"\x7d".data]
    ["data: \x7b\"type\":\"done\"\x7d".data] rfl

/-- Claim C6: dispatching a record of type `error` changes only the `error`
field of the consumer state — `streamedText`, `sources` and `isStreaming`
are untouched, so already-delivered partial answers stay visible. -/
theorem claim_C6 (st : StreamState) (e : Json) (h : e.typeIs "error".data = true) :
    (applyEvent st e).streamedText = st.streamedText ∧
    (applyEvent st e).sources = st.sources ∧
    (applyEvent st e).isStreaming = st.isStreaming ∧
    (applyEvent st e).error = e.getField "message".data := by
  rw [applyEvent_error h]
  exact ⟨rfl, rfl, rfl, rfl⟩

/-- Claim C6, witness: an error record arriving after partial answer text
keeps that text and the sources. -/
theorem claim_C6_witness :
    (applyEvent { resetState with streamedText := "partial".data }
        (recordJson (.error "boom".data))).streamedText = "partial".data ∧
    (applyEvent { resetState with streamedText := "partial".data }
        (recordJson (.error "boom".data))).sources = some (.arr []) ∧
    (applyEvent { resetState with streamedText := "partial".data }
        (recordJson (.error "boom".data))).isStreaming = true ∧
    (applyEvent { resetState with streamedText := "partial".data }
        (recordJson (.error "boom".data))).error = some (.str "boom".data) := by
  have h := claim_C6 { resetState with streamedText := "partial".data }
    (recordJson (.error "boom".data)) rfl
  exact ⟨h.1, h.2.1, h.2.2.1, h.2.2.2⟩

/-- Claim C10: a successfully parsed record whose `type` is none of
`sources`, `token`, `error`, `done` leaves the entire consumer state
unchanged — unrecognized event types are silently ignored. -/
theorem claim_C10 (st : StreamState) (e : Json)
    (hs : e.typeIs "sources".data = false) (ht : e.typeIs "token".data = false)
    (he : e.typeIs "error".data = false) (hd : e.typeIs "done".data = false) :
    applyEvent st e = st :=
  applyEvent_other hs ht he

/-- Claim C10, witness: a record with the unknown type `ping` is ignored. -/
theorem claim_C10_witness :
    applyEvent resetState (.obj [("type".data, .str "ping".data)]) = resetState :=
  claim_C10 resetState (.obj [("type".data, .str "ping".data)]) rfl rfl rfl rfl

/-! ### Claims C8, C9, C3 (query lifecycle) -/

theorem querySetStates_ne_nil (prev : StreamState) (r : FetchResult) :
    querySetStates prev r ≠ [] := by
  cases r with
  | fetchThrow msg => simp [querySetStates]
  | notOk body statusText => simp [querySetStates]
  | noBody => simp [querySetStates]
  | ok frags ending => cases ending <;> simp [querySetStates]

/-- Claim C8: at the start of every `query` invocation the consumer state is
replaced wholesale by `sources = [], streamedText = "", error = null,
isStreaming = true` before any fragment is processed (the first `setState`
of the call installs exactly that state), and nothing of the previous
query's state influences the invocation. -/
theorem claim_C8 (prev prev' : StreamState) (r : FetchResult) :
    (querySetStates prev r).head? = some resetState ∧
    resetState = { sources := some (.arr []), streamedText := [],
                   isStreaming := true, error := some .null } ∧
    querySetStates prev r = querySetStates prev' r := by
  refine ⟨?_, rfl, rfl⟩
  cases r with
  | fetchThrow msg => rfl
  | notOk body statusText => rfl
  | noBody => rfl
  | ok frags ending => cases ending <;> rfl

/-- Claim C9: every `query` invocation ends with `isStreaming = false` in
the final consumer state, on every execution path — non-OK response, absent
body, exception during fetch or reading, and normal exhaustion of the byte
stream (the `finally` block fires on each of them). -/
theorem claim_C9 (prev : StreamState) (r : FetchResult) :
    (queryFinal prev r).isStreaming = false := by
  unfold queryFinal
  cases r with
  | fetchThrow msg => rfl
  | notOk body statusText => rfl
  | noBody => rfl
  | ok frags ending =>
    cases ending with
    | clean =>
      simp only [querySetStates]
      rw [List.getLastD_concat]
    | readThrow msg =>
      simp only [querySetStates]
      rw [show ∀ (a b : StreamState) (l : List StreamState), l ++ [a, b] = (l ++ [a]) ++ [b]
            from fun a b l => by simp, List.getLastD_concat]

/-- Claim C3, counterexample to the claim as stated: a byte stream that ends
cleanly after zero fragments, with no terminal event delivered (the dropped
remote closed the connection), leaves `error` at its reset value `null` —
no terminal error is surfaced; only `isStreaming` is cleared. -/
theorem claim_C3_cex :
    (queryFinal { sources := none, streamedText := "old".data, isStreaming := false,
                  error := some (.str "old error".data) } (.ok [] .clean)).error
      = some .null ∧
    (queryFinal { sources := none, streamedText := "old".data, isStreaming := false,
                  error := some (.str "old error".data) } (.ok [] .clean)).isStreaming
      = false := ⟨rfl, rfl⟩

/-- Claim C3, amended: only an abnormal termination (the read rejecting, as
a dropped connection does) is surfaced as a terminal error distinct from an
explicit `Error` event — the exception's message is recorded and streaming
ends; a byte stream that ends cleanly without a terminal event ends the
query with `isStreaming = false` but records no error, leaving the stream
silently incomplete. -/
theorem claim_C3 (prev : StreamState) (frags : List (List Nat)) (msg : Option (List Char)) :
    (queryFinal prev (.ok frags (.readThrow msg))).error = some (.str (exnMessage msg)) ∧
    (queryFinal prev (.ok frags (.readThrow msg))).isStreaming = false ∧
    (queryFinal prev (.ok frags .clean)).error =
      (runFragments ⟨freshDecoder, [], resetState⟩ frags).1.state.error ∧
    (queryFinal prev (.ok frags .clean)).isStreaming = false := by
  unfold queryFinal
  simp only [querySetStates]
  refine ⟨?_, ?_, ?_, ?_⟩
  · rw [show ∀ (a b : StreamState) (l : List StreamState), l ++ [a, b] = (l ++ [a]) ++ [b]
        from fun a b l => by simp, List.getLastD_concat]
  · rw [show ∀ (a b : StreamState) (l : List StreamState), l ++ [a, b] = (l ++ [a]) ++ [b]
        from fun a b l => by simp, List.getLastD_concat]
  · rw [List.getLastD_concat]
  · rw [List.getLastD_concat]

/-! ### Claim C7: chunker line-range invariants -/

/-- A usable cut list for an `n`-line file: strictly increasing, within
`[1, n]`, and starting at line 1. -/
def goodCuts (n : Nat) (cuts : List Nat) : Prop :=
  cuts.Pairwise (· < ·) ∧ (∀ c ∈ cuts, 1 ≤ c ∧ c ≤ n) ∧ cuts.head? = some 1

theorem cutsToRanges_bounds {n : Nat} : ∀ {cuts : List Nat},
    cuts.Pairwise (· < ·) → (∀ c ∈ cuts, 1 ≤ c ∧ c ≤ n) →
    ∀ se ∈ cutsToRanges n cuts, 1 ≤ se.1 ∧ se.1 ≤ se.2 ∧ se.2 ≤ n
  | [], _, _ => by simp [cutsToRanges]
  | [k], _, hb => by
    have hk := hb k (by simp)
    simp [cutsToRanges]
    omega
  | k :: c :: cs, hp, hb => by
    intro se hse
    simp only [cutsToRanges, List.mem_cons] at hse
    rcases hse with rfl | hse
    · have hk := hb k (by simp)
      have hc := hb c (by simp)
      have hkc : k < c := List.rel_of_pairwise_cons hp (by simp)
      simp
      omega
    · exact cutsToRanges_bounds hp.of_cons (fun x hx => hb x (by simp [hx])) se hse

theorem cutsToRanges_cover {n : Nat} : ∀ {cuts : List Nat} {k : Nat},
    cuts.head? = some k → cuts.Pairwise (· < ·) →
    ∀ l, k ≤ l → l ≤ n → ∃ se ∈ cutsToRanges n cuts, se.1 ≤ l ∧ l ≤ se.2
  | [], k, h, _, _, _, _ => by cases h
  | [k'], k, h, _, l, hkl, hln => by
    obtain rfl : k' = k := by injection h
    exact ⟨(k', n), by simp [cutsToRanges], hkl, hln⟩
  | k' :: c :: cs, k, h, hp, l, hkl, hln => by
    obtain rfl : k' = k := by injection h
    by_cases hlc : l < c
    · exact ⟨(k', c - 1), by simp [cutsToRanges], hkl, by omega⟩
    · obtain ⟨se, hse, h1, h2⟩ :=
        @cutsToRanges_cover n (c :: cs) c rfl hp.of_cons l (by omega) hln
      exact ⟨se, by simp [cutsToRanges, hse], h1, h2⟩

theorem applyOverlap_bounds {ov n : Nat} {rs : List (Nat × Nat)}
    (h : ∀ se ∈ rs, 1 ≤ se.1 ∧ se.1 ≤ se.2 ∧ se.2 ≤ n) :
    ∀ se ∈ applyOverlap ov rs, 1 ≤ se.1 ∧ se.1 ≤ se.2 ∧ se.2 ≤ n := by
  cases rs with
  | nil => simp [applyOverlap]
  | cons r rs =>
    intro se hse
    simp only [applyOverlap, List.mem_cons, List.mem_map] at hse
    rcases hse with hse | ⟨a, ha, hse⟩
    · rw [hse]
      exact h r (by simp)
    · have ha2 := h a (by simp [ha])
      rw [← hse]
      simp
      omega

theorem applyOverlap_cover {ov : Nat} {rs : List (Nat × Nat)} {l : Nat} (hl : 1 ≤ l)
    (h : ∃ se ∈ rs, se.1 ≤ l ∧ l ≤ se.2) :
    ∃ se ∈ applyOverlap ov rs, se.1 ≤ l ∧ l ≤ se.2 := by
  obtain ⟨se, hse, h1, h2⟩ := h
  cases rs with
  | nil => cases hse
  | cons r rs =>
    rcases List.mem_cons.mp hse with hse | hse
    · subst hse
      exact ⟨se, by simp [applyOverlap], h1, h2⟩
    · refine ⟨(max (se.1 - ov) 1, se.2), ?_, by omega, h2⟩
      simp only [applyOverlap, List.mem_cons, List.mem_map]
      exact Or.inr ⟨se, hse, rfl⟩

theorem mkChunks_ranges {filename : List Char} {fileLines : List (List Char)} :
    ∀ {rs : List (Nat × Nat)} {idx : Nat},
    (∀ ch ∈ mkChunks filename fileLines idx rs,
      ∃ se ∈ rs, ch.start_line = se.1 ∧ ch.end_line = se.2) ∧
    (∀ se ∈ rs, ∃ ch ∈ mkChunks filename fileLines idx rs,
      ch.start_line = se.1 ∧ ch.end_line = se.2)
  | [], _ => by simp [mkChunks]
  | (s, e) :: rs, idx => by
    constructor
    · intro ch hch
      rcases List.mem_cons.mp hch with rfl | hch
      · exact ⟨(s, e), by simp, rfl, rfl⟩
      · obtain ⟨se, hse, hh⟩ := (@mkChunks_ranges filename fileLines rs (idx + 1)).1 ch hch
        exact ⟨se, List.mem_cons_of_mem _ hse, hh⟩
    · intro se hse
      rcases List.mem_cons.mp hse with rfl | hse
      · refine ⟨{ filename := filename, start_line := s, end_line := e,
                  content := (fileLines.drop (s - 1)).take (e + 1 - s),
                  sequence_index := idx }, ?_, rfl, rfl⟩
        simp [mkChunks]
      · obtain ⟨ch, hch, hh⟩ := (@mkChunks_ranges filename fileLines rs (idx + 1)).2 se hse
        exact ⟨ch, List.mem_cons_of_mem _ hch, hh⟩

theorem mergeShort_sublist (m : Nat) : ∀ (k : Nat) (cs : List Nat),
    (mergeShort m k cs).Sublist cs
  | _, [] => List.Sublist.slnil
  | k, c :: cs => by
    unfold mergeShort
    by_cases h : c - k < m
    · simp only [h, if_true]
      exact (mergeShort_sublist m k cs).cons c
    · simp only [h, if_false]
      exact (mergeShort_sublist m c cs).cons₂ c

theorem extraCuts_mem {k len w x : Nat} (h : x ∈ extraCuts k len w) :
    k < x ∧ x < k + len := by
  unfold extraCuts at h
  obtain ⟨i, hi, rfl⟩ := List.mem_map.mp h
  rw [List.mem_range] at hi
  have hw : 1 ≤ max w 1 := le_max_right w 1
  have h1 : max w 1 * (i + 1) ≤ max w 1 * ((len - 1) / max w 1) :=
    Nat.mul_le_mul_left _ hi
  have h2 : max w 1 * ((len - 1) / max w 1) ≤ len - 1 := by
    rw [mul_comm]
    exact Nat.div_mul_le_self _ _
  have h3 : max w 1 ≤ len - 1 := by
    have hd : 1 ≤ (len - 1) / max w 1 := by omega
    have := (Nat.one_le_div_iff (by omega : 0 < max w 1)).mp hd
    exact this
  have h4 : 1 ≤ max w 1 * (i + 1) := by nlinarith
  omega

theorem extraCuts_pairwise (k len w : Nat) : (extraCuts k len w).Pairwise (· < ·) := by
  unfold extraCuts
  have h := List.pairwise_lt_range ((len - 1) / max w 1)
  exact h.map _ (fun a b hab => by
    have hw : 1 ≤ max w 1 := le_max_right w 1
    nlinarith)

theorem splitLong_head (ceil w n : Nat) : ∀ (cuts : List Nat),
    (splitLong ceil w n cuts).head? = cuts.head?
  | [] => rfl
  | [k] => by unfold splitLong; rfl
  | k :: c :: cs => by unfold splitLong; rfl

theorem splitLong_lb (ceil w n : Nat) : ∀ (cuts : List Nat) (c0 : Nat),
    (∀ y ∈ cuts, c0 ≤ y) → ∀ x ∈ splitLong ceil w n cuts, c0 ≤ x
  | [], _, _, x, hx => by cases hx
  | [k], c0, h, x, hx => by
    unfold splitLong at hx
    rcases List.mem_cons.mp hx with rfl | hx
    · exact h x (by simp)
    · have hk := h k (by simp)
      split at hx
      · have := extraCuts_mem hx
        omega
      · cases hx
  | k :: c :: cs, c0, h, x, hx => by
    unfold splitLong at hx
    rcases List.mem_append.mp hx with hx | hx
    · rcases List.mem_cons.mp hx with rfl | hx
      · exact h x (by simp)
      · have hk := h k (by simp)
        split at hx
        · have := extraCuts_mem hx
          omega
        · cases hx
    · exact splitLong_lb ceil w n (c :: cs) c0 (fun y hy => h y (by simp [List.mem_cons.mp hy])) x hx

theorem splitLong_ub (ceil w n : Nat) : ∀ (cuts : List Nat),
    cuts.Pairwise (· < ·) → (∀ y ∈ cuts, 1 ≤ y ∧ y ≤ n) →
    ∀ x ∈ splitLong ceil w n cuts, 1 ≤ x ∧ x ≤ n
  | [], _, _, x, hx => by cases hx
  | [k], _, h, x, hx => by
    unfold splitLong at hx
    have hk := h k (by simp)
    rcases List.mem_cons.mp hx with rfl | hx
    · exact hk
    · split at hx
      · have := extraCuts_mem hx
        omega
      · cases hx
  | k :: c :: cs, hp, h, x, hx => by
    unfold splitLong at hx
    have hk := h k (by simp)
    have hc := h c (by simp)
    rcases List.mem_append.mp hx with hx | hx
    · rcases List.mem_cons.mp hx with rfl | hx
      · exact hk
      · split at hx
        · have := extraCuts_mem hx
          omega
        · cases hx
    · exact splitLong_ub ceil w n (c :: cs) hp.of_cons
        (fun y hy => h y (by simp [List.mem_cons.mp hy])) x hx

theorem splitLong_pairwise (ceil w n : Nat) : ∀ (cuts : List Nat),
    cuts.Pairwise (· < ·) → (splitLong ceil w n cuts).Pairwise (· < ·)
  | [], _ => List.Pairwise.nil
  | [k], _ => by
    unfold splitLong
    refine List.pairwise_cons.mpr ⟨?_, ?_⟩
    · intro x hx
      split at hx
      · exact (extraCuts_mem hx).1
      · cases hx
    · split
      · exact extraCuts_pairwise _ _ _
      · exact List.Pairwise.nil
  | k :: c :: cs, hp => by
    unfold splitLong
    have hkc : k < c := List.rel_of_pairwise_cons hp (by simp)
    refine (List.pairwise_append).mpr ⟨?_, splitLong_pairwise ceil w n (c :: cs) hp.of_cons, ?_⟩
    · refine List.pairwise_cons.mpr ⟨?_, ?_⟩
      · intro x hx
        split at hx
        · exact (extraCuts_mem hx).1
        · cases hx
      · split
        · exact extraCuts_pairwise _ _ _
        · exact List.Pairwise.nil
    · intro x hx y hy
      have hyc : c ≤ y := splitLong_lb ceil w n (c :: cs) c
        (fun z hz => by
          rcases List.mem_cons.mp hz with rfl | hz
          · exact le_refl _
          · exact le_of_lt (List.rel_of_pairwise_cons hp.of_cons hz)) y hy
      rcases List.mem_cons.mp hx with rfl | hx
      · omega
      · split at hx
        · have := extraCuts_mem hx
          omega
        · cases hx

theorem goodCuts_ranges {n : Nat} {cuts : List Nat} (h : goodCuts n cuts) (ov : Nat) :
    (∀ se ∈ applyOverlap ov (cutsToRanges n cuts), 1 ≤ se.1 ∧ se.1 ≤ se.2 ∧ se.2 ≤ n) ∧
    (∀ l, 1 ≤ l → l ≤ n →
      ∃ se ∈ applyOverlap ov (cutsToRanges n cuts), se.1 ≤ l ∧ l ≤ se.2) := by
  obtain ⟨hp, hb, hh⟩ := h
  constructor
  · exact applyOverlap_bounds (cutsToRanges_bounds hp hb)
  · intro l hl1 hln
    exact applyOverlap_cover hl1 (cutsToRanges_cover hh hp l hl1 hln)

theorem boundaryLines_pairwise (isB : List Char → Bool) (lines : List (List Char)) :
    (boundaryLines isB lines).Pairwise (· < ·) := by
  unfold boundaryLines
  exact ((List.pairwise_lt_range _).filter _).map _ (fun a b hab => by omega)

theorem boundaryLines_mem {isB : List Char → Bool} {lines : List (List Char)} {x : Nat}
    (hx : x ∈ boundaryLines isB lines) : 1 ≤ x ∧ x ≤ lines.length := by
  unfold boundaryLines at hx
  obtain ⟨i, hi, rfl⟩ := List.mem_map.mp hx
  have := List.mem_range.mp (List.mem_of_mem_filter hi)
  omega

theorem fixedCuts_pairwise (n w : Nat) : (fixedCuts n w).Pairwise (· < ·) := by
  unfold fixedCuts
  exact (List.pairwise_lt_range _).map _ (fun a b hab => by
    have hw : 1 ≤ max w 1 := le_max_right w 1
    nlinarith)

theorem fixedCuts_mem {n w x : Nat} (hn : 1 ≤ n) (hx : x ∈ fixedCuts n w) :
    1 ≤ x ∧ x ≤ n := by
  unfold fixedCuts at hx
  obtain ⟨k, hk, rfl⟩ := List.mem_map.mp hx
  have hk2 := List.mem_range.mp hk
  have h1 : max w 1 * k ≤ max w 1 * ((n - 1) / max w 1) := Nat.mul_le_mul_left _ (by omega)
  have h2 : max w 1 * ((n - 1) / max w 1) ≤ n - 1 := by
    rw [mul_comm]
    exact Nat.div_mul_le_self _ _
  omega

theorem fixedCuts_head (n w : Nat) : (fixedCuts n w).head? = some 1 := by
  unfold fixedCuts
  rw [List.range_succ_eq_map]
  simp

theorem goodCuts_steps {n m ceil w : Nat} {cuts0 : List Nat} (h : goodCuts n cuts0) :
    goodCuts n (splitLong ceil w n (mergeStage m cuts0)) := by
  obtain ⟨hp, hb, hh⟩ := h
  obtain ⟨cs, rfl⟩ : ∃ cs, cuts0 = 1 :: cs := by
    cases cuts0 with
    | nil => cases hh
    | cons k cs => exact ⟨cs, by injection hh with hh; rw [hh]⟩
  rw [show mergeStage m (1 :: cs) = 1 :: mergeShort m 1 cs from rfl]
  have hsub : (1 :: mergeShort m 1 cs).Sublist (1 :: cs) :=
    (mergeShort_sublist m 1 cs).cons₂ 1
  have hp1 : (1 :: mergeShort m 1 cs).Pairwise (· < ·) := hp.sublist hsub
  have hb1 : ∀ c ∈ 1 :: mergeShort m 1 cs, 1 ≤ c ∧ c ≤ n :=
    fun c hc => hb c (hsub.subset hc)
  refine ⟨splitLong_pairwise ceil w n _ hp1, ?_, ?_⟩
  · exact splitLong_ub ceil w n _ hp1 hb1
  · rw [splitLong_head]
    rfl

/-- Claim C7 (spec-modelled, §4.1 of the design): for every source file, the
chunk sequence produced by the Chunker has `start_line ≤ end_line` in every
chunk, and the `[start_line, end_line]` ranges together cover every line of
the file at least once. -/
theorem claim_C7 (isBoundaryLine : List Char → Bool) (cfg : ChunkerConfig)
    (filename : List Char) (fileLines : List (List Char)) :
    (∀ ch ∈ chunkFile isBoundaryLine cfg filename fileLines,
      ch.start_line ≤ ch.end_line) ∧
    (∀ l, 1 ≤ l → l ≤ fileLines.length →
      ∃ ch ∈ chunkFile isBoundaryLine cfg filename fileLines,
        ch.start_line ≤ l ∧ l ≤ ch.end_line) := by
  by_cases hn0 : fileLines.length = 0
  · constructor
    · intro ch hch
      unfold chunkFile at hch
      rw [if_pos hn0] at hch
      cases hch
    · intro l hl1 hln
      omega
  by_cases hsmall : fileLines.length < cfg.smallFileThreshold
  · have hrw : chunkFile isBoundaryLine cfg filename fileLines =
        mkChunks filename fileLines 0 [(1, fileLines.length)] := by
      unfold chunkFile
      rw [if_neg hn0, if_pos hsmall]
    rw [hrw]
    constructor
    · intro ch hch
      obtain ⟨se, hse, h1, h2⟩ := (mkChunks_ranges).1 ch hch
      simp only [List.mem_singleton] at hse
      subst hse
      simp only at h1 h2
      omega
    · intro l hl1 hln
      obtain ⟨ch, hch, h1, h2⟩ := (mkChunks_ranges).2 (1, fileLines.length)
        (List.mem_singleton.mpr rfl)
      exact ⟨ch, hch, by omega, by omega⟩
  · have hgood0 : goodCuts fileLines.length
        (if (boundaryLines isBoundaryLine fileLines).filter (1 < ·) = []
         then fixedCuts fileLines.length cfg.windowSize
         else 1 :: (boundaryLines isBoundaryLine fileLines).filter (1 < ·)) := by
      split
      · exact ⟨fixedCuts_pairwise _ _, fun c hc => fixedCuts_mem (by omega) hc,
          fixedCuts_head _ _⟩
      · refine ⟨?_, ?_, rfl⟩
        · refine List.pairwise_cons.mpr ⟨?_, (boundaryLines_pairwise _ _).filter _⟩
          intro x hx
          have := List.of_mem_filter hx
          exact of_decide_eq_true this
        · intro c hc
          rcases List.mem_cons.mp hc with rfl | hc
          · omega
          · exact boundaryLines_mem (List.mem_of_mem_filter hc)
    have hgood2 := @goodCuts_steps _ cfg.minChunkLines cfg.maxChunkLines
      cfg.windowSize _ hgood0
    have hranges := goodCuts_ranges hgood2 cfg.overlapLines
    have hrw : chunkFile isBoundaryLine cfg filename fileLines =
        mkChunks filename fileLines 0 (applyOverlap cfg.overlapLines
          (cutsToRanges fileLines.length (splitLong cfg.maxChunkLines cfg.windowSize
            fileLines.length
            (mergeStage cfg.minChunkLines
              (if (boundaryLines isBoundaryLine fileLines).filter (1 < ·) = []
               then fixedCuts fileLines.length cfg.windowSize
               else 1 :: (boundaryLines isBoundaryLine fileLines).filter (1 < ·)))))) := by
      unfold chunkFile
      rw [if_neg hn0, if_neg hsmall]
    rw [hrw]
    constructor
    · intro ch hch
      obtain ⟨se, hse, h1, h2⟩ := (mkChunks_ranges).1 ch hch
      have := hranges.1 se hse
      omega
    · intro l hl1 hln
      obtain ⟨se, hse, h1, h2⟩ := hranges.2 l hl1 hln
      obtain ⟨ch, hch, hc1, hc2⟩ := (mkChunks_ranges).2 se hse
      exact ⟨ch, hch, by omega, by omega⟩

/-- Claim C7, witness: a 12-line file with boundaries at lines 1, 4 and 9
chunked with a small-file threshold of 3 still covers line 6 by a chunk
with an ordered line range. -/
theorem claim_C7_witness :
    ∃ ch ∈ chunkFile (fun l => l.headD ' ' = 'd')
      { smallFileThreshold := 3, minChunkLines := 2, maxChunkLines := 4,
        windowSize := 3, overlapLines := 1 } "a.py".data
      (List.replicate 12 "x".data),
      ch.start_line ≤ 6 ∧ 6 ≤ ch.end_line := by
  have h := (claim_C7 (fun l => l.headD ' ' = 'd')
    { smallFileThreshold := 3, minChunkLines := 2, maxChunkLines := 4,
      windowSize := 3, overlapLines := 1 } "a.py".data
    (List.replicate 12 "x".data)).2 6 (by decide) (by decide)
  exact h

/-! ### Claim C1: JSON serialization round-trip -/

theorem hexVal_hexDigitCh {d : Nat} (h : d < 16) : hexVal (hexDigitCh d) = some d := by
  interval_cases d <;> rfl

theorem escapeString_cons (c : Char) (s : List Char) :
    escapeString (c :: s) = escapeChar c ++ escapeString s := rfl

theorem parseStringBody_escape : ∀ (s : List Char) (rest : List Char),
    parseStringBody (escapeString s ++ '"' :: rest) = some (s, rest)
  | [], rest => by
    show parseStringBody ('"' :: rest) = some ([], rest)
    unfold parseStringBody
    simp
  | c :: s, rest => by
    rw [escapeString_cons, List.append_assoc]
    by_cases h1 : c = '"'
    · subst h1
      show parseStringBody ('\\' :: '"' :: (escapeString s ++ '"' :: rest)) = _
      simp [parseStringBody, unescapeChar, parseStringBody_escape s rest]
    by_cases h2 : c = '\\'
    · subst h2
      show parseStringBody ('\\' :: '\\' :: (escapeString s ++ '"' :: rest)) = _
      simp [parseStringBody, unescapeChar, parseStringBody_escape s rest]
    by_cases h3 : c = '\x08'
    · subst h3
      show parseStringBody ('\\' :: 'b' :: (escapeString s ++ '"' :: rest)) = _
      simp [parseStringBody, unescapeChar, parseStringBody_escape s rest]
    by_cases h4 : c = '\x0c'
    · subst h4
      show parseStringBody ('\\' :: 'f' :: (escapeString s ++ '"' :: rest)) = _
      simp [parseStringBody, unescapeChar, parseStringBody_escape s rest]
    by_cases h5 : c = '\n'
    · subst h5
      show parseStringBody ('\\' :: 'n' :: (escapeString s ++ '"' :: rest)) = _
      simp [parseStringBody, unescapeChar, parseStringBody_escape s rest]
    by_cases h6 : c = '\r'
    · subst h6
      show parseStringBody ('\\' :: 'r' :: (escapeString s ++ '"' :: rest)) = _
      simp [parseStringBody, unescapeChar, parseStringBody_escape s rest]
    by_cases h7 : c = '\t'
    · subst h7
      show parseStringBody ('\\' :: 't' :: (escapeString s ++ '"' :: rest)) = _
      simp [parseStringBody, unescapeChar, parseStringBody_escape s rest]
    by_cases h8 : c.toNat < 0x20
    · have hesc : escapeChar c =
          ['\\', 'u', '0', '0', hexDigitCh (c.toNat / 16), hexDigitCh (c.toNat % 16)] := by
        unfold escapeChar
        rw [if_neg h1, if_neg h2, if_neg h3, if_neg h4, if_neg h5, if_neg h6, if_neg h7,
          if_pos h8]
      rw [hesc]
      show parseStringBody ('\\' :: 'u' :: '0' :: '0' :: hexDigitCh (c.toNat / 16) ::
        hexDigitCh (c.toNat % 16) :: (escapeString s ++ '"' :: rest)) = _
      have hv1 : hexVal (hexDigitCh (c.toNat / 16)) = some (c.toNat / 16) :=
        hexVal_hexDigitCh (by omega)
      have hv2 : hexVal (hexDigitCh (c.toNat % 16)) = some (c.toNat % 16) :=
        hexVal_hexDigitCh (by omega)
      have hv0 : hexVal '0' = some 0 := rfl
      simp [parseStringBody, hv0, hv1, hv2, parseStringBody_escape s rest]
      rw [show c.toNat / 16 * 16 + c.toNat % 16 = c.toNat from by omega]
      exact Char.ofNat_toNat c
    · have hesc : escapeChar c = [c] := by
        unfold escapeChar
        rw [if_neg h1, if_neg h2, if_neg h3, if_neg h4, if_neg h5, if_neg h6, if_neg h7,
          if_neg h8]
      rw [hesc]
      show parseStringBody (c :: (escapeString s ++ '"' :: rest)) = _
      unfold parseStringBody
      rw [if_neg h1, if_neg h2, if_neg h8]
      simp [parseStringBody_escape s rest]

theorem digit_bounds {c : Char} (h : isDigitCh c = true) : 48 ≤ c.toNat ∧ c.toNat ≤ 57 := by
  unfold isDigitCh at h
  rw [Bool.and_eq_true, decide_eq_true_eq, decide_eq_true_eq] at h
  exact ⟨char_toNat_le h.1, char_toNat_le h.2⟩

theorem digit_ne {c : Char} (h : isDigitCh c = true) {d : Char}
    (hd : d.toNat < 48 ∨ 57 < d.toNat) : c ≠ d := by
  have hb := digit_bounds h
  intro he
  have := char_eq_iff.mp he
  omega

theorem dropWhile_of_takeWhile_nil {p : Char → Bool} : ∀ {l : List Char},
    l.takeWhile p = [] → l.dropWhile p = l
  | [], _ => rfl
  | c :: r, h => by
    rw [List.takeWhile_cons] at h
    rw [List.dropWhile_cons]
    split at h
    · cases h
    · simp_all

theorem delim_takeWhile_nil {rest : List Char} (h : delimHead rest = true) :
    rest.takeWhile isDigitCh = [] := by
  cases rest with
  | nil => rfl
  | cons c r =>
    unfold delimHead at h
    simp only [Bool.or_eq_true, decide_eq_true_eq] at h
    rcases h with (rfl | rfl) | rfl <;> rfl

theorem parseDigits1_append {ds rest : List Char} (acc : List Char) (hne : ds ≠ [])
    (hds : ∀ c ∈ ds, isDigitCh c) (hrest : rest.takeWhile isDigitCh = []) :
    parseDigits1 acc (ds ++ rest) = some (acc ++ ds, rest) := by
  unfold parseDigits1
  rw [takeWhile_all_append rest hds, hrest, dropWhile_all_append rest hds,
      dropWhile_of_takeWhile_nil hrest, List.append_nil]
  cases ds with
  | nil => exact absurd rfl hne
  | cons c t => rfl

theorem parseExpPart_wf : ∀ {t : List Char} (acc rest : List Char), expPartWF t = true →
    delimHead rest = true → parseExpPart acc (t ++ rest) = some (acc ++ t, rest)
  | [], acc, rest, _, hrest => by
    simp only [List.nil_append, List.append_nil]
    cases rest with
    | nil => rfl
    | cons c r =>
      unfold delimHead at hrest
      simp only [Bool.or_eq_true, decide_eq_true_eq] at hrest
      unfold parseExpPart
      rcases hrest with (rfl | rfl) | rfl <;> rfl
  | c :: r, acc, rest, ht, hrest => by
    rw [show expPartWF (c :: r) = (if c = 'e' ∨ c = 'E' then expTailWF r else false)
      from rfl] at ht
    by_cases hc : c = 'e' ∨ c = 'E'
    · rw [if_pos hc] at ht
      cases r with
      | nil => cases ht
      | cons c2 r2 =>
        rw [show expTailWF (c2 :: r2) =
          ((if c2 = '+' ∨ c2 = '-' then r2 else c2 :: r2) ≠ [] &&
           (if c2 = '+' ∨ c2 = '-' then r2 else c2 :: r2).all isDigitCh) from rfl] at ht
        simp only [List.cons_append]
        rw [show parseExpPart acc (c :: (c2 :: (r2 ++ rest))) =
              (if c = 'e' ∨ c = 'E' then
                 (if c2 = '+' ∨ c2 = '-' then parseDigits1 (acc ++ [c, c2]) (r2 ++ rest)
                  else parseDigits1 (acc ++ [c]) (c2 :: (r2 ++ rest)))
               else some (acc, c :: (c2 :: (r2 ++ rest)))) from rfl, if_pos hc]
        by_cases hc2 : c2 = '+' ∨ c2 = '-'
        · rw [if_pos hc2]
          rw [if_pos hc2] at ht
          simp only [Bool.and_eq_true, decide_eq_true_eq, ne_eq] at ht
          obtain ⟨hne, hall⟩ := ht
          rw [parseDigits1_append _ hne (fun x hx => List.all_eq_true.mp hall x hx)
            (delim_takeWhile_nil hrest)]
          simp
        · rw [if_neg hc2]
          rw [if_neg hc2] at ht
          simp only [Bool.and_eq_true, decide_eq_true_eq, ne_eq] at ht
          obtain ⟨hne, hall⟩ := ht
          rw [show c2 :: (r2 ++ rest) = (c2 :: r2) ++ rest from rfl,
            parseDigits1_append _ (by simp) (fun x hx => List.all_eq_true.mp hall x hx)
              (delim_takeWhile_nil hrest)]
          simp
    · rw [if_neg hc] at ht
      cases ht

theorem takeWhile_dropWhile_append_nil {p : Char → Bool} {rest : List Char}
    (hrest : rest.takeWhile p = []) : ∀ (l : List Char),
    ((l.dropWhile p) ++ rest).takeWhile p = []
  | [] => by simpa using hrest
  | c :: t => by
    rw [List.dropWhile_cons]
    split
    · exact takeWhile_dropWhile_append_nil hrest t
    · rw [List.cons_append, List.takeWhile_cons_of_neg (by assumption)]

theorem parseFracPart_delim (acc : List Char) {rest : List Char}
    (hrest : delimHead rest = true) : parseFracPart acc rest = parseExpPart acc rest := by
  cases rest with
  | nil => rfl
  | cons c r =>
    unfold delimHead at hrest
    simp only [Bool.or_eq_true, decide_eq_true_eq] at hrest
    show (if c = '.' then _ else parseExpPart acc (c :: r)) = _
    rcases hrest with (rfl | rfl) | rfl <;> rfl

theorem parseFracPart_wf : ∀ {t : List Char} (acc rest : List Char), fracExpWF t = true →
    delimHead rest = true → parseFracPart acc (t ++ rest) = some (acc ++ t, rest)
  | [], acc, rest, _, hrest => by
    rw [List.nil_append, parseFracPart_delim acc hrest, List.append_nil]
    simpa using @parseExpPart_wf [] acc rest rfl hrest
  | c :: r, acc, rest, ht, hrest => by
    rw [show fracExpWF (c :: r) =
      (if c = '.' then r.takeWhile isDigitCh ≠ [] && expPartWF (r.dropWhile isDigitCh)
       else expPartWF (c :: r)) from rfl] at ht
    by_cases hc : c = '.'
    · subst hc
      rw [if_pos rfl] at ht
      simp only [Bool.and_eq_true, decide_eq_true_eq, ne_eq] at ht
      obtain ⟨hne, hexp⟩ := ht
      simp only [List.cons_append]
      rw [show parseFracPart acc ('.' :: (r ++ rest)) =
        (match parseDigits1 (acc ++ ['.']) (r ++ rest) with
         | none => none
         | some (acc2, s2) => parseExpPart acc2 s2) from rfl]
      have hsplit : r ++ rest = r.takeWhile isDigitCh ++ (r.dropWhile isDigitCh ++ rest) := by
        rw [← List.append_assoc, List.takeWhile_append_dropWhile]
      rw [hsplit, parseDigits1_append _ hne (fun x hx => List.mem_takeWhile_imp hx)
        (takeWhile_dropWhile_append_nil (delim_takeWhile_nil hrest) r)]
      show parseExpPart (acc ++ ['.'] ++ r.takeWhile isDigitCh)
        (r.dropWhile isDigitCh ++ rest) = _
      rw [parseExpPart_wf _ rest hexp hrest]
      rw [show acc ++ '.' :: r = acc ++ ['.'] ++ r.takeWhile isDigitCh ++
        r.dropWhile isDigitCh from by
          simp [List.append_assoc, List.takeWhile_append_dropWhile]]
    · rw [if_neg hc] at ht
      simp only [List.cons_append]
      rw [show parseFracPart acc (c :: (r ++ rest)) =
        (if c = '.' then
          (match parseDigits1 (acc ++ ['.']) (r ++ rest) with
           | none => none
           | some (acc2, s2) => parseExpPart acc2 s2)
         else parseExpPart acc (c :: (r ++ rest))) from rfl, if_neg hc,
        show (c :: (r ++ rest)) = (c :: r) ++ rest from rfl,
        parseExpPart_wf acc rest ht hrest]

theorem parseIntPart_wf {c1 : Char} {r1 : List Char} (sign rest : List Char)
    (h : intTailWF (c1 :: r1) = true) (hrest : delimHead rest = true) :
    parseIntPart sign c1 (r1 ++ rest) = some (sign ++ c1 :: r1, rest) := by
  rw [show intTailWF (c1 :: r1) =
    (if c1 = '0' then fracExpWF r1
     else isDigitCh c1 && fracExpWF (r1.dropWhile isDigitCh)) from rfl] at h
  unfold parseIntPart
  by_cases hc : c1 = '0'
  · rw [if_pos hc] at h
    rw [if_pos hc, parseFracPart_wf _ rest h hrest]
    simp [hc]
  · rw [if_neg hc] at h
    simp only [Bool.and_eq_true] at h
    obtain ⟨hd, hfrac⟩ := h
    rw [if_neg hc, hd, if_pos rfl]
    have htw : (r1 ++ rest).takeWhile isDigitCh = r1.takeWhile isDigitCh := by
      rw [show r1 ++ rest = r1.takeWhile isDigitCh ++ (r1.dropWhile isDigitCh ++ rest) from by
            rw [← List.append_assoc, List.takeWhile_append_dropWhile],
          takeWhile_all_append _ (fun x hx => List.mem_takeWhile_imp hx),
          takeWhile_dropWhile_append_nil (delim_takeWhile_nil hrest) r1, List.append_nil]
    have hdw : (r1 ++ rest).dropWhile isDigitCh = r1.dropWhile isDigitCh ++ rest := by
      rw [show r1 ++ rest = r1.takeWhile isDigitCh ++ (r1.dropWhile isDigitCh ++ rest) from by
            rw [← List.append_assoc, List.takeWhile_append_dropWhile],
          dropWhile_all_append _ (fun x hx => List.mem_takeWhile_imp hx),
          dropWhile_of_takeWhile_nil
            (takeWhile_dropWhile_append_nil (delim_takeWhile_nil hrest) r1)]
    rw [htw, hdw, parseFracPart_wf _ rest hfrac hrest]
    rw [show sign ++ c1 :: r1 = sign ++ c1 :: r1.takeWhile isDigitCh ++
      r1.dropWhile isDigitCh from by simp [List.takeWhile_append_dropWhile]]

theorem parseNumber_wf {raw : List Char} (rest : List Char) (h : numTokenWF raw = true)
    (hrest : delimHead rest = true) : parseNumber (raw ++ rest) = some (raw, rest) := by
  cases raw with
  | nil => cases h
  | cons c r =>
    rw [show numTokenWF (c :: r) =
      (if c = '-' then intTailWF r else intTailWF (c :: r)) from rfl] at h
    simp only [List.cons_append]
    by_cases hc : c = '-'
    · rw [if_pos hc] at h
      cases r with
      | nil => cases h
      | cons c1 r1 =>
        subst hc
        simp only [List.cons_append]
        show parseIntPart ['-'] c1 (r1 ++ rest) = some ('-' :: c1 :: r1, rest)
        rw [parseIntPart_wf ['-'] rest h hrest]
        rfl
    · rw [if_neg hc] at h
      rw [show parseNumber (c :: (r ++ rest)) =
        (if c = '-' then
          (match r ++ rest with
           | [] => none
           | c1 :: r1 => parseIntPart ['-'] c1 r1)
         else parseIntPart [] c (r ++ rest)) from rfl, if_neg hc,
        parseIntPart_wf [] rest h hrest]
      simp

theorem skipWs_cons_not_ws {c : Char} (r : List Char) (h : isJsonWs c = false) :
    skipWs (c :: r) = c :: r := by
  unfold skipWs
  rw [List.dropWhile_cons_of_neg (by simp [h])]

theorem numTokenWF_head {raw : List Char} (h : numTokenWF raw = true) :
    ∃ c r, raw = c :: r ∧ (c = '-' ∨ isDigitCh c = true) := by
  cases raw with
  | nil => cases h
  | cons c r =>
    refine ⟨c, r, rfl, ?_⟩
    rw [show numTokenWF (c :: r) =
      (if c = '-' then intTailWF r else intTailWF (c :: r)) from rfl] at h
    by_cases hc : c = '-'
    · exact Or.inl hc
    · rw [if_neg hc] at h
      rw [show intTailWF (c :: r) =
        (if c = '0' then fracExpWF r
         else isDigitCh c && fracExpWF (r.dropWhile isDigitCh)) from rfl] at h
      by_cases hc0 : c = '0'
      · exact Or.inr (by rw [hc0]; rfl)
      · rw [if_neg hc0, Bool.and_eq_true] at h
        exact Or.inr h.1

theorem numHead_facts {c : Char} (h : c = '-' ∨ isDigitCh c = true) :
    isJsonWs c = false ∧ c ≠ '"' ∧ c ≠ '[' ∧ c ≠ '{' ∧ c ≠ 'n' ∧ c ≠ 't' ∧ c ≠ 'f' ∧
    c ≠ ']' ∧ c ≠ '}' ∧ c ≠ ',' := by
  have hb : 45 ≤ c.toNat ∧ c.toNat ≤ 57 ∧ c.toNat ≠ 46 ∧ c.toNat ≠ 47 := by
    rcases h with rfl | h
    · exact ⟨by decide, by decide, by decide, by decide⟩
    · have := digit_bounds h
      omega
  have hws : isJsonWs c = false := by
    rw [Bool.eq_false_iff]
    intro hws
    unfold isJsonWs at hws
    simp only [Bool.or_eq_true, decide_eq_true_eq, char_eq_iff] at hws
    simp only [show (' ' : Char).toNat = 32 from rfl, show ('\t' : Char).toNat = 9 from rfl,
      show ('\n' : Char).toNat = 10 from rfl, show ('\r' : Char).toNat = 13 from rfl] at hws
    omega
  refine ⟨hws, ?_, ?_, ?_, ?_, ?_, ?_, ?_, ?_, ?_⟩ <;>
    · intro he
      have := char_eq_iff.mp he
      revert this
      simp
      omega

theorem fuelNeed_pos (v : Json) : 1 ≤ fuelNeed v := by
  cases v <;> simp [fuelNeed]

theorem fuelItems_pos (xs : List Json) : 1 ≤ fuelItems xs := by
  cases xs <;> simp [fuelItems]

theorem fuelRestItems_pos (xs : List Json) : 1 ≤ fuelRestItems xs := by
  cases xs <;> simp [fuelRestItems]

theorem fuelFields_pos (kvs : List (List Char × Json)) : 1 ≤ fuelFields kvs := by
  cases kvs with
  | nil => simp [fuelFields]
  | cons kv kvs => cases kv; simp [fuelFields]

theorem fuelRestFields_pos (kvs : List (List Char × Json)) : 1 ≤ fuelRestFields kvs := by
  cases kvs with
  | nil => simp [fuelRestFields]
  | cons kv kvs => cases kv; simp [fuelRestFields]

theorem renderItems_cons (x : Json) : ∀ (xs : List Json),
    Json.renderItems (x :: xs) = x.render ++ itemsSep xs
  | [] => by simp [Json.renderItems, itemsSep]
  | y :: ys => by
    show x.render ++ ',' :: Json.renderItems (y :: ys) = _
    rw [renderItems_cons y ys]
    simp [itemsSep]

theorem renderFields_cons (k : List Char) (v : Json) : ∀ (kvs : List (List Char × Json)),
    Json.renderFields ((k, v) :: kvs) = renderString k ++ ':' :: v.render ++ fieldsSep kvs
  | [] => by simp [Json.renderFields, fieldsSep]
  | (k2, v2) :: kvs => by
    show renderString k ++ ':' :: v.render ++ ',' :: Json.renderFields ((k2, v2) :: kvs) = _
    rw [renderFields_cons k2 v2 kvs]
    simp [fieldsSep]

theorem delim_itemsSep (xs : List Json) (rest : List Char) :
    delimHead (itemsSep xs ++ ']' :: rest) = true := by
  cases xs <;> rfl

theorem delim_fieldsSep (kvs : List (List Char × Json)) (rest : List Char) :
    delimHead (fieldsSep kvs ++ '}' :: rest) = true := by
  cases kvs with
  | nil => rfl
  | cons kv kvs => cases kv; rfl

theorem renderHead (v : Json) (hv : Json.wf v = true) :
    ∃ c t, v.render = c :: t ∧ isJsonWs c = false ∧ c ≠ ']' ∧ c ≠ '}' ∧ c ≠ ',' := by
  cases v with
  | null => exact ⟨'n', _, rfl, rfl, by decide, by decide, by decide⟩
  | bool b =>
    cases b
    · exact ⟨'f', _, rfl, rfl, by decide, by decide, by decide⟩
    · exact ⟨'t', _, rfl, rfl, by decide, by decide, by decide⟩
  | num raw =>
    obtain ⟨c, r, rfl, hc⟩ := numTokenWF_head (by simpa [Json.wf] using hv)
    obtain ⟨hws, _, _, _, _, _, _, h8, h9, h10⟩ := numHead_facts hc
    exact ⟨c, r, rfl, hws, h8, h9, h10⟩
  | str s => exact ⟨'"', _, rfl, rfl, by decide, by decide, by decide⟩
  | arr xs => exact ⟨'[', _, rfl, rfl, by decide, by decide, by decide⟩
  | obj kvs => exact ⟨'{', _, rfl, rfl, by decide, by decide, by decide⟩

mutual

theorem parse_render : ∀ (v : Json) (f : Nat) (rest : List Char), Json.wf v = true →
    delimHead rest = true → fuelNeed v ≤ f →
    parseValue f (v.render ++ rest) = some (v, rest)
  | v, 0, _, _, _, hf => absurd hf (by have := fuelNeed_pos v; omega)
  | .null, f + 1, rest, _, _, _ => rfl
  | .bool true, f + 1, rest, _, _, _ => rfl
  | .bool false, f + 1, rest, _, _, _ => rfl
  | .num raw, f + 1, rest, hv, hrest, _ => by
    have hwf : numTokenWF raw = true := by simpa [Json.wf] using hv
    obtain ⟨c, r, rfl, hc⟩ := numTokenWF_head hwf
    obtain ⟨hws, h1, h2, h3, h4, h5, h6, _, _, _⟩ := numHead_facts hc
    show parseValue (f + 1) ((c :: r) ++ rest) = _
    simp only [List.cons_append]
    simp only [parseValue]
    rw [skipWs_cons_not_ws _ hws]
    change (if c = '"' then (parseStringBody (r ++ rest)).map fun p => (Json.str p.1, p.2)
            else if c = '[' then (parseArrayItems f (r ++ rest)).map fun p => (Json.arr p.1, p.2)
            else if c = '{' then
              (parseObjectItems f (r ++ rest)).map fun p => (Json.obj p.1, p.2)
            else if c = 'n' ∨ c = 't' ∨ c = 'f' then _
            else (parseNumber (c :: (r ++ rest))).map fun p => (Json.num p.1, p.2)) = _
    rw [if_neg h1, if_neg h2, if_neg h3,
      if_neg (show ¬(c = 'n' ∨ c = 't' ∨ c = 'f') from by
        rintro (rfl | rfl | rfl) <;> simp_all),
      show c :: (r ++ rest) = (c :: r) ++ rest from by simp,
      parseNumber_wf rest hwf hrest]
    rfl
  | .str s, f + 1, rest, _, _, _ => by
    rw [show Json.render (.str s) ++ rest = '"' :: (escapeString s ++ '"' :: rest) from by
      simp [Json.render, renderString]]
    show (parseStringBody (escapeString s ++ '"' :: rest)).map (fun p => (Json.str p.1, p.2))
      = some (.str s, rest)
    rw [parseStringBody_escape]
    rfl
  | .arr xs, f + 1, rest, hv, hrest, hf => by
    rw [show Json.render (.arr xs) ++ rest = '[' :: (Json.renderItems xs ++ ']' :: rest) from by
      simp [Json.render]]
    show (parseArrayItems f (Json.renderItems xs ++ ']' :: rest)).map
      (fun p => (Json.arr p.1, p.2)) = some (.arr xs, rest)
    rw [parse_render_items xs f rest (by simpa [Json.wf] using hv) hrest (by
      have h : fuelNeed (.arr xs) = 1 + fuelItems xs := rfl
      omega)]
    rfl
  | .obj kvs, f + 1, rest, hv, hrest, hf => by
    rw [show Json.render (.obj kvs) ++ rest = '{' :: (Json.renderFields kvs ++ '}' :: rest)
      from by simp [Json.render]]
    show (parseObjectItems f (Json.renderFields kvs ++ '}' :: rest)).map
      (fun p => (Json.obj p.1, p.2)) = some (.obj kvs, rest)
    rw [parse_render_fields kvs f rest (by simpa [Json.wf] using hv) hrest (by
      have h : fuelNeed (.obj kvs) = 1 + fuelFields kvs := rfl
      omega)]
    rfl

theorem parse_render_items : ∀ (xs : List Json) (f : Nat) (rest : List Char),
    Json.wfItems xs = true → delimHead rest = true → fuelItems xs ≤ f →
    parseArrayItems f (Json.renderItems xs ++ ']' :: rest) = some (xs, rest)
  | xs, 0, _, _, _, hf => absurd hf (by have := fuelItems_pos xs; omega)
  | [], f + 1, rest, _, _, _ => rfl
  | x :: xs, f + 1, rest, hv, hrest, hf => by
    have hwf : Json.wf x = true ∧ Json.wfItems xs = true := by
      simpa [Json.wfItems, Bool.and_eq_true] using hv
    have hfm : fuelItems (x :: xs) = 1 + max (fuelNeed x) (fuelRestItems xs) := rfl
    have hx := parse_render x f (itemsSep xs ++ ']' :: rest) hwf.1
      (delim_itemsSep xs rest) (by omega)
    obtain ⟨c, t, hct, hws, hne1, _, _⟩ := renderHead x hwf.1
    rw [renderItems_cons, List.append_assoc, hct]
    rw [hct] at hx
    simp only [List.cons_append] at hx ⊢
    simp only [parseArrayItems]
    rw [skipWs_cons_not_ws _ hws]
    change (if c = ']' then some ([], t ++ (itemsSep xs ++ ']' :: rest))
            else (parseValue f (c :: (t ++ (itemsSep xs ++ ']' :: rest)))).bind fun p =>
              (parseArrayRest f p.2).bind fun q => some (p.1 :: q.1, q.2)) = _
    rw [if_neg hne1, hx]
    show (parseArrayRest f (itemsSep xs ++ ']' :: rest)).bind
      (fun q => some (x :: q.1, q.2)) = _
    rw [parse_render_items_rest xs f rest hwf.2 hrest (by omega)]
    rfl

theorem parse_render_items_rest : ∀ (xs : List Json) (f : Nat) (rest : List Char),
    Json.wfItems xs = true → delimHead rest = true → fuelRestItems xs ≤ f →
    parseArrayRest f (itemsSep xs ++ ']' :: rest) = some (xs, rest)
  | xs, 0, _, _, _, hf => absurd hf (by have := fuelRestItems_pos xs; omega)
  | [], f + 1, rest, _, _, _ => rfl
  | x :: xs, f + 1, rest, hv, hrest, hf => by
    have hwf : Json.wf x = true ∧ Json.wfItems xs = true := by
      simpa [Json.wfItems, Bool.and_eq_true] using hv
    have hfm : fuelRestItems (x :: xs) = 1 + max (fuelNeed x) (fuelRestItems xs) := rfl
    have hx := parse_render x f (itemsSep xs ++ ']' :: rest) hwf.1
      (delim_itemsSep xs rest) (by omega)
    show parseArrayRest (f + 1) (',' :: (x.render ++ itemsSep xs ++ ']' :: rest)) = _
    change (parseValue f (x.render ++ itemsSep xs ++ ']' :: rest)).bind (fun p =>
      (parseArrayRest f p.2).bind fun q => some (p.1 :: q.1, q.2)) = _
    rw [List.append_assoc, hx]
    show (parseArrayRest f (itemsSep xs ++ ']' :: rest)).bind
      (fun q => some (x :: q.1, q.2)) = _
    rw [parse_render_items_rest xs f rest hwf.2 hrest (by omega)]
    rfl

theorem parse_render_member : ∀ (k : List Char) (v : Json) (f : Nat) (rest : List Char),
    Json.wf v = true → delimHead rest = true → 1 + fuelNeed v ≤ f →
    parseMember f (renderString k ++ ':' :: v.render ++ rest) = some ((k, v), rest)
  | k, v, 0, _, _, _, hf => absurd hf (by have := fuelNeed_pos v; omega)
  | k, v, f + 1, rest, hv, hrest, hf => by
    rw [show renderString k ++ ':' :: v.render ++ rest
      = '"' :: (escapeString k ++ '"' :: (':' :: (v.render ++ rest))) from by
        simp [renderString]]
    change (parseStringBody (escapeString k ++ '"' :: (':' :: (v.render ++ rest)))).bind
      (fun p => match skipWs p.2 with
        | [] => none
        | c2 :: r2 =>
          if c2 = ':' then (parseValue f r2).bind fun q => some ((p.1, q.1), q.2)
          else none) = _
    rw [parseStringBody_escape]
    show (parseValue f (v.render ++ rest)).bind (fun q => some ((k, q.1), q.2)) = _
    rw [parse_render v f rest hv hrest (by omega)]
    rfl

theorem parse_render_fields : ∀ (kvs : List (List Char × Json)) (f : Nat) (rest : List Char),
    Json.wfFields kvs = true → delimHead rest = true → fuelFields kvs ≤ f →
    parseObjectItems f (Json.renderFields kvs ++ '}' :: rest) = some (kvs, rest)
  | kvs, 0, _, _, _, hf => absurd hf (by have := fuelFields_pos kvs; omega)
  | [], f + 1, rest, _, _, _ => rfl
  | (k, v) :: kvs, f + 1, rest, hv, hrest, hf => by
    have hwf : Json.wf v = true ∧ Json.wfFields kvs = true := by
      simpa [Json.wfFields, Bool.and_eq_true] using hv
    have hfm : fuelFields ((k, v) :: kvs) =
      1 + max (1 + fuelNeed v) (fuelRestFields kvs) := rfl
    have hm := parse_render_member k v f (fieldsSep kvs ++ '}' :: rest) hwf.1
      (delim_fieldsSep kvs rest) (by omega)
    rw [renderFields_cons]
    rw [show renderString k ++ ':' :: v.render ++ fieldsSep kvs ++ '}' :: rest
      = '"' :: (escapeString k ++ '"' ::
        (':' :: (v.render ++ (fieldsSep kvs ++ '}' :: rest)))) from by
        simp [renderString]]
    change (parseMember f
        ('"' :: (escapeString k ++ '"' ::
          (':' :: (v.render ++ (fieldsSep kvs ++ '}' :: rest)))))).bind
      (fun p => (parseObjectRest f p.2).bind fun q => some (p.1 :: q.1, q.2)) = _
    rw [show ('"' :: (escapeString k ++ '"' ::
        (':' :: (v.render ++ (fieldsSep kvs ++ '}' :: rest)))))
      = renderString k ++ ':' :: v.render ++ (fieldsSep kvs ++ '}' :: rest) from by
        simp [renderString], hm]
    show (parseObjectRest f (fieldsSep kvs ++ '}' :: rest)).bind
      (fun q => some ((k, v) :: q.1, q.2)) = _
    rw [parse_render_fields_rest kvs f rest hwf.2 hrest (by omega)]
    rfl

theorem parse_render_fields_rest : ∀ (kvs : List (List Char × Json)) (f : Nat)
    (rest : List Char), Json.wfFields kvs = true → delimHead rest = true →
    fuelRestFields kvs ≤ f →
    parseObjectRest f (fieldsSep kvs ++ '}' :: rest) = some (kvs, rest)
  | kvs, 0, _, _, _, hf => absurd hf (by have := fuelRestFields_pos kvs; omega)
  | [], f + 1, rest, _, _, _ => rfl
  | (k, v) :: kvs, f + 1, rest, hv, hrest, hf => by
    have hwf : Json.wf v = true ∧ Json.wfFields kvs = true := by
      simpa [Json.wfFields, Bool.and_eq_true] using hv
    have hfm : fuelRestFields ((k, v) :: kvs) =
      1 + max (1 + fuelNeed v) (fuelRestFields kvs) := rfl
    have hm := parse_render_member k v f (fieldsSep kvs ++ '}' :: rest) hwf.1
      (delim_fieldsSep kvs rest) (by omega)
    rw [show fieldsSep ((k, v) :: kvs) ++ '}' :: rest
      = ',' :: (renderString k ++ ':' :: v.render ++ (fieldsSep kvs ++ '}' :: rest)) from by
        simp [fieldsSep]]
    change (parseMember f
        (renderString k ++ ':' :: v.render ++ (fieldsSep kvs ++ '}' :: rest))).bind
      (fun p => (parseObjectRest f p.2).bind fun q => some (p.1 :: q.1, q.2)) = _
    rw [hm]
    show (parseObjectRest f (fieldsSep kvs ++ '}' :: rest)).bind
      (fun q => some ((k, v) :: q.1, q.2)) = _
    rw [parse_render_fields_rest kvs f rest hwf.2 hrest (by omega)]
    rfl

end

theorem render_len_pos (v : Json) (hv : Json.wf v = true) : 1 ≤ v.render.length := by
  obtain ⟨c, t, hct, _⟩ := renderHead v hv
  rw [hct]
  simp

theorem renderString_len (k : List Char) : (renderString k).length = 2 + (escapeString k).length := by
  simp [renderString]
  omega

mutual

theorem fuelNeed_le : ∀ (v : Json), Json.wf v = true → fuelNeed v ≤ v.render.length
  | .null, _ => by simp [fuelNeed, Json.render]
  | .bool true, _ => by simp [fuelNeed, Json.render]
  | .bool false, _ => by simp [fuelNeed, Json.render]
  | .num raw, hv => by
    obtain ⟨c, r, rfl, _⟩ := numTokenWF_head (by simpa [Json.wf] using hv)
    simp [fuelNeed, Json.render]
  | .str s, _ => by
    simp [fuelNeed, Json.render, renderString]
  | .arr xs, hv => by
    have h := fuelItems_le xs (by simpa [Json.wf] using hv)
    rw [show fuelNeed (.arr xs) = 1 + fuelItems xs from rfl,
      show Json.render (.arr xs) = '[' :: Json.renderItems xs ++ [']'] from rfl]
    simp only [List.length_cons, List.length_append, List.length_singleton]
    omega
  | .obj kvs, hv => by
    have h := fuelFields_le kvs (by simpa [Json.wf] using hv)
    rw [show fuelNeed (.obj kvs) = 1 + fuelFields kvs from rfl,
      show Json.render (.obj kvs) = '{' :: Json.renderFields kvs ++ ['}'] from rfl]
    simp only [List.length_cons, List.length_append, List.length_singleton]
    omega

theorem fuelItems_le : ∀ (xs : List Json), Json.wfItems xs = true →
    fuelItems xs ≤ (Json.renderItems xs).length + 1
  | [], _ => by simp [fuelItems, Json.renderItems]
  | x :: xs, hv => by
    have hwf : Json.wf x = true ∧ Json.wfItems xs = true := by
      simpa [Json.wfItems, Bool.and_eq_true] using hv
    have h1 := fuelNeed_le x hwf.1
    have h2 := fuelRestItems_le xs hwf.2
    have h3 := render_len_pos x hwf.1
    rw [show fuelItems (x :: xs) = 1 + max (fuelNeed x) (fuelRestItems xs) from rfl,
      renderItems_cons]
    simp only [List.length_append]
    omega

theorem fuelRestItems_le : ∀ (xs : List Json), Json.wfItems xs = true →
    fuelRestItems xs ≤ (itemsSep xs).length + 1
  | [], _ => by simp [fuelRestItems, itemsSep]
  | x :: xs, hv => by
    have hwf : Json.wf x = true ∧ Json.wfItems xs = true := by
      simpa [Json.wfItems, Bool.and_eq_true] using hv
    have h1 := fuelNeed_le x hwf.1
    have h2 := fuelRestItems_le xs hwf.2
    rw [show fuelRestItems (x :: xs) = 1 + max (fuelNeed x) (fuelRestItems xs) from rfl,
      show itemsSep (x :: xs) = ',' :: x.render ++ itemsSep xs from rfl]
    simp only [List.length_cons, List.length_append]
    omega

theorem fuelFields_le : ∀ (kvs : List (List Char × Json)), Json.wfFields kvs = true →
    fuelFields kvs ≤ (Json.renderFields kvs).length + 1
  | [], _ => by simp [fuelFields, Json.renderFields]
  | (k, v) :: kvs, hv => by
    have hwf : Json.wf v = true ∧ Json.wfFields kvs = true := by
      simpa [Json.wfFields, Bool.and_eq_true] using hv
    have h1 := fuelNeed_le v hwf.1
    have h2 := fuelRestFields_le kvs hwf.2
    have h3 := renderString_len k
    rw [show fuelFields ((k, v) :: kvs) = 1 + max (1 + fuelNeed v) (fuelRestFields kvs)
        from rfl, renderFields_cons]
    simp only [List.length_append, List.length_cons]
    omega

theorem fuelRestFields_le : ∀ (kvs : List (List Char × Json)), Json.wfFields kvs = true →
    fuelRestFields kvs ≤ (fieldsSep kvs).length + 1
  | [], _ => by simp [fuelRestFields, fieldsSep]
  | (k, v) :: kvs, hv => by
    have hwf : Json.wf v = true ∧ Json.wfFields kvs = true := by
      simpa [Json.wfFields, Bool.and_eq_true] using hv
    have h1 := fuelNeed_le v hwf.1
    have h2 := fuelRestFields_le kvs hwf.2
    have h3 := renderString_len k
    rw [show fuelRestFields ((k, v) :: kvs) = 1 + max (1 + fuelNeed v) (fuelRestFields kvs)
        from rfl,
      show fieldsSep ((k, v) :: kvs) = ',' :: renderString k ++ ':' :: v.render ++ fieldsSep kvs
        from rfl]
    simp only [List.length_cons, List.length_append]
    omega

end

theorem Json.parse_render_full {v : Json} (hv : Json.wf v = true) :
    Json.parse v.render = some v := by
  unfold Json.parse
  have h := parse_render v (v.render.length + 1) [] hv rfl
    (by have := fuelNeed_le v hv; omega)
  rw [List.append_nil] at h
  rw [h]
  rfl

theorem expPart_chars : ∀ {t : List Char}, expPartWF t = true →
    ∀ c ∈ t, 43 ≤ c.toNat ∧ c.toNat ≤ 101 := by
  intro t ht c hc
  cases t with
  | nil => cases hc
  | cons c1 r =>
    rw [show expPartWF (c1 :: r) = (if c1 = 'e' ∨ c1 = 'E' then expTailWF r else false)
      from rfl] at ht
    by_cases h1 : c1 = 'e' ∨ c1 = 'E'
    case neg => rw [if_neg h1] at ht; cases ht
    rw [if_pos h1] at ht
    rcases List.mem_cons.mp hc with rfl | hc
    · rcases h1 with rfl | rfl
      · exact ⟨by decide, by decide⟩
      · exact ⟨by decide, by decide⟩
    · cases r with
      | nil => cases hc
      | cons c2 r2 =>
        rw [show expTailWF (c2 :: r2) =
          ((if c2 = '+' ∨ c2 = '-' then r2 else c2 :: r2) ≠ [] &&
           (if c2 = '+' ∨ c2 = '-' then r2 else c2 :: r2).all isDigitCh) from rfl,
          Bool.and_eq_true] at ht
        by_cases h2 : c2 = '+' ∨ c2 = '-'
        · rw [if_pos h2] at ht
          rcases List.mem_cons.mp hc with rfl | hc
          · rcases h2 with rfl | rfl
            · exact ⟨by decide, by decide⟩
            · exact ⟨by decide, by decide⟩
          · have := digit_bounds (List.all_eq_true.mp ht.2 c hc)
            omega
        · rw [if_neg h2] at ht
          have := digit_bounds (List.all_eq_true.mp ht.2 c (by simp [hc]))
          omega

theorem fracExp_chars : ∀ {t : List Char}, fracExpWF t = true →
    ∀ c ∈ t, 43 ≤ c.toNat ∧ c.toNat ≤ 101 := by
  intro t ht c hc
  cases t with
  | nil => cases hc
  | cons c1 r =>
    rw [show fracExpWF (c1 :: r) =
      (if c1 = '.' then r.takeWhile isDigitCh ≠ [] && expPartWF (r.dropWhile isDigitCh)
       else expPartWF (c1 :: r)) from rfl] at ht
    by_cases h1 : c1 = '.'
    · rw [if_pos h1, Bool.and_eq_true] at ht
      rcases List.mem_cons.mp hc with rfl | hc
      · rw [h1]; exact ⟨by decide, by decide⟩
      · rw [← @List.takeWhile_append_dropWhile _ isDigitCh r] at hc
        rcases List.mem_append.mp hc with hc | hc
        · have := digit_bounds (List.mem_takeWhile_imp hc)
          omega
        · exact expPart_chars ht.2 c hc
    · rw [if_neg h1] at ht
      exact expPart_chars ht c hc

theorem numToken_chars {raw : List Char} (h : numTokenWF raw = true) :
    ∀ c ∈ raw, 43 ≤ c.toNat ∧ c.toNat ≤ 101 := by
  intro c hc
  have intTail : ∀ (s : List Char), intTailWF s = true → ∀ x ∈ s,
      43 ≤ x.toNat ∧ x.toNat ≤ 101 := by
    intro s hs x hx
    cases s with
    | nil => cases hx
    | cons c2 r2 =>
      rw [show intTailWF (c2 :: r2) =
        (if c2 = '0' then fracExpWF r2
         else isDigitCh c2 && fracExpWF (r2.dropWhile isDigitCh)) from rfl] at hs
      by_cases h2 : c2 = '0'
      · rcases List.mem_cons.mp hx with rfl | hx
        · rw [h2]; exact ⟨by decide, by decide⟩
        · rw [if_pos h2] at hs
          exact fracExp_chars hs x hx
      · rw [if_neg h2, Bool.and_eq_true] at hs
        rcases List.mem_cons.mp hx with rfl | hx
        · have := digit_bounds hs.1
          omega
        · rw [← @List.takeWhile_append_dropWhile _ isDigitCh r2] at hx
          rcases List.mem_append.mp hx with hx | hx
          · have := digit_bounds (List.mem_takeWhile_imp hx)
            omega
          · exact fracExp_chars hs.2 x hx
  cases raw with
  | nil => cases hc
  | cons c1 r =>
    rw [show numTokenWF (c1 :: r) = (if c1 = '-' then intTailWF r else intTailWF (c1 :: r))
      from rfl] at h
    by_cases h1 : c1 = '-'
    · rw [if_pos h1] at h
      rcases List.mem_cons.mp hc with rfl | hc
      · rw [h1]; exact ⟨by decide, by decide⟩
      · exact intTail r h c hc
    · rw [if_neg h1] at h
      exact intTail (c1 :: r) h c hc

theorem hexDigitCh_toNat {d : Nat} (h : d < 16) :
    48 ≤ (hexDigitCh d).toNat ∧ (hexDigitCh d).toNat ≤ 102 := by
  interval_cases d <;> exact ⟨by decide, by decide⟩

theorem escapeChar_no_nl (c : Char) : '\n' ∉ escapeChar c := by
  unfold escapeChar
  split_ifs with h1 h2 h3 h4 h5 h6 h7 h8
  · decide
  · decide
  · decide
  · decide
  · decide
  · decide
  · decide
  · intro hm
    simp only [List.mem_cons, List.mem_singleton, List.not_mem_nil, or_false] at hm
    have hd1 := @hexDigitCh_toNat (c.toNat / 16) (by omega)
    have hd2 := @hexDigitCh_toNat (c.toNat % 16) (by omega)
    rcases hm with h | h | h | h | h | h
    · exact absurd h (by decide)
    · exact absurd h (by decide)
    · exact absurd h (by decide)
    · exact absurd h (by decide)
    · have := char_eq_iff.mp h
      revert this
      simp
      omega
    · have := char_eq_iff.mp h
      revert this
      simp
      omega
  · intro hm
    simp only [List.mem_singleton] at hm
    exact h5 hm.symm

theorem escapeString_no_nl (s : List Char) : '\n' ∉ escapeString s := by
  intro hm
  unfold escapeString at hm
  rw [List.mem_flatten] at hm
  obtain ⟨l, hl, hml⟩ := hm
  obtain ⟨c, _, rfl⟩ := List.mem_map.mp hl
  exact escapeChar_no_nl c hml

theorem not_mem_append2 {a : Char} {l1 l2 : List Char} (h1 : a ∉ l1) (h2 : a ∉ l2) :
    a ∉ l1 ++ l2 := fun hm => (List.mem_append.mp hm).elim h1 h2

theorem not_mem_cons2 {a b : Char} {l : List Char} (h1 : a ≠ b) (h2 : a ∉ l) :
    a ∉ b :: l := fun hm => (List.mem_cons.mp hm).elim h1 h2

theorem renderString_no_nl (s : List Char) : '\n' ∉ renderString s :=
  not_mem_cons2 (by decide) (not_mem_append2 (escapeString_no_nl s) (by decide))

mutual

theorem render_no_nl : ∀ (v : Json), Json.wf v = true → '\n' ∉ v.render
  | .null, _ => by decide
  | .bool true, _ => by decide
  | .bool false, _ => by decide
  | .num raw, hv => fun hm => by
    have := numToken_chars (by simpa [Json.wf] using hv) '\n' hm
    revert this
    simp
  | .str s, _ => renderString_no_nl s
  | .arr xs, hv =>
    not_mem_cons2 (by decide)
      (not_mem_append2 (renderItems_no_nl xs (by simpa [Json.wf] using hv)) (by decide))
  | .obj kvs, hv =>
    not_mem_cons2 (by decide)
      (not_mem_append2 (renderFields_no_nl kvs (by simpa [Json.wf] using hv)) (by decide))

theorem renderItems_no_nl : ∀ (xs : List Json), Json.wfItems xs = true →
    '\n' ∉ Json.renderItems xs
  | [], _ => by decide
  | x :: xs, hv => by
    have hwf : Json.wf x = true ∧ Json.wfItems xs = true := by
      simpa [Json.wfItems, Bool.and_eq_true] using hv
    rw [renderItems_cons]
    exact not_mem_append2 (render_no_nl x hwf.1) (itemsSep_no_nl xs hwf.2)

theorem itemsSep_no_nl : ∀ (xs : List Json), Json.wfItems xs = true → '\n' ∉ itemsSep xs
  | [], _ => by decide
  | x :: xs, hv => by
    have hwf : Json.wf x = true ∧ Json.wfItems xs = true := by
      simpa [Json.wfItems, Bool.and_eq_true] using hv
    rw [show itemsSep (x :: xs) = ',' :: x.render ++ itemsSep xs from rfl]
    exact not_mem_cons2 (by decide)
      (not_mem_append2 (render_no_nl x hwf.1) (itemsSep_no_nl xs hwf.2))

theorem renderFields_no_nl : ∀ (kvs : List (List Char × Json)), Json.wfFields kvs = true →
    '\n' ∉ Json.renderFields kvs
  | [], _ => by decide
  | (k, v) :: kvs, hv => by
    have hwf : Json.wf v = true ∧ Json.wfFields kvs = true := by
      simpa [Json.wfFields, Bool.and_eq_true] using hv
    rw [renderFields_cons]
    exact not_mem_append2
      (not_mem_append2 (renderString_no_nl k)
        (not_mem_cons2 (by decide) (render_no_nl v hwf.1)))
      (fieldsSep_no_nl kvs hwf.2)

theorem fieldsSep_no_nl : ∀ (kvs : List (List Char × Json)), Json.wfFields kvs = true →
    '\n' ∉ fieldsSep kvs
  | [], _ => by decide
  | (k, v) :: kvs, hv => by
    have hwf : Json.wf v = true ∧ Json.wfFields kvs = true := by
      simpa [Json.wfFields, Bool.and_eq_true] using hv
    rw [show fieldsSep ((k, v) :: kvs) =
      ',' :: renderString k ++ ':' :: v.render ++ fieldsSep kvs from rfl]
    exact not_mem_cons2 (by decide)
      (not_mem_append2
        (not_mem_append2 (renderString_no_nl k)
          (not_mem_cons2 (by decide) (render_no_nl v hwf.1)))
        (fieldsSep_no_nl kvs hwf.2))

end

theorem splitOnNl_ne_nil : ∀ (s : List Char), splitOnNl s ≠ []
  | [] => by simp [splitOnNl]
  | c :: rest => by
    unfold splitOnNl
    split
    · simp
    · split <;> simp

theorem splitOnNl_no_nl : ∀ (s : List Char), '\n' ∉ s → splitOnNl s = [s]
  | [], _ => rfl
  | c :: rest, h => by
    have hc : ¬ c = '\n' := fun hc => h (by simp [hc])
    have hr := splitOnNl_no_nl rest (fun hr => h (by simp [hr]))
    unfold splitOnNl
    rw [if_neg hc, hr]

theorem splitOnNl_append_nl : ∀ (a : List Char), '\n' ∉ a → ∀ (s : List Char),
    splitOnNl (a ++ '\n' :: s) = a :: splitOnNl s
  | [], _, s => by
    simp [splitOnNl]
  | c :: a, h, s => by
    have hc : ¬ c = '\n' := fun hc => h (by simp [hc])
    have hr := splitOnNl_append_nl a (fun hr => h (by simp [hr])) s
    show splitOnNl (c :: (a ++ '\n' :: s)) = _
    rw [splitOnNl, if_neg hc, hr]

theorem splitOnNl_parts_no_nl : ∀ (s : List Char), ∀ part ∈ splitOnNl s, '\n' ∉ part
  | [], part, hp => by
    simp [splitOnNl] at hp
    simp [hp]
  | c :: rest, part, hp => by
    unfold splitOnNl at hp
    by_cases hc : c = '\n'
    · rw [if_pos hc] at hp
      rcases List.mem_cons.mp hp with rfl | hp
      · simp
      · exact splitOnNl_parts_no_nl rest part hp
    · rw [if_neg hc] at hp
      rcases hps : splitOnNl rest with _ | ⟨p, ps⟩
      · exact absurd hps (splitOnNl_ne_nil rest)
      · rw [hps] at hp
        rcases List.mem_cons.mp hp with rfl | hp
        · intro hm
          rcases List.mem_cons.mp hm with h | h
          · exact hc h.symm
          · exact splitOnNl_parts_no_nl rest p (by simp [hps]) h
        · exact splitOnNl_parts_no_nl rest part (by simp [hps, hp])

theorem getLastD_irrel {α : Type} : ∀ (l : List α), l ≠ [] → ∀ (d d' : α),
    l.getLastD d = l.getLastD d'
  | [], h, _, _ => absurd rfl h
  | a :: l, _, d, d' => by
    rw [List.getLastD_cons, List.getLastD_cons]

theorem chunkFold : ∀ (chunk buf : List Char) (st : StreamState), '\n' ∉ buf →
    ((splitOnNl (buf ++ chunk)).getLastD [],
      processLines st (splitOnNl (buf ++ chunk)).dropLast) =
    chunk.foldl lineStep (buf, st)
  | [], buf, st, hb => by
    rw [List.append_nil, splitOnNl_no_nl buf hb]
    simp [processLines]
  | c :: chunk, buf, st, hb => by
    by_cases hc : c = '\n'
    · subst hc
      rw [show buf ++ '\n' :: chunk = (buf ++ ['\n']) ++ chunk from by simp,
        show (buf ++ ['\n']) ++ chunk = buf ++ ('\n' :: chunk) from by simp,
        splitOnNl_append_nl buf hb chunk]
      have hne := splitOnNl_ne_nil chunk
      rw [show (buf :: splitOnNl chunk).getLastD [] = (splitOnNl chunk).getLastD buf
          from List.getLastD_cons _ _ _,
        getLastD_irrel _ hne buf [],
        show (buf :: splitOnNl chunk).dropLast = buf :: (splitOnNl chunk).dropLast from
          by rw [List.dropLast_cons_of_ne_nil hne]]
      rw [show processLines st (buf :: (splitOnNl chunk).dropLast) =
          processLines (processLine st buf) (splitOnNl chunk).dropLast from rfl]
      rw [show ('\n' :: chunk).foldl lineStep (buf, st) =
          chunk.foldl lineStep ([], processLine st buf) from by
        simp [lineStep]]
      have h := chunkFold chunk [] (processLine st buf) (by simp)
      rw [List.nil_append] at h
      exact h
    · rw [show buf ++ c :: chunk = (buf ++ [c]) ++ chunk from by simp]
      have hb2 : '\n' ∉ buf ++ [c] := by
        intro hm
        rcases List.mem_append.mp hm with h | h
        · exact hb h
        · rw [List.mem_singleton] at h
          exact hc h.symm
      rw [show (c :: chunk).foldl lineStep (buf, st) =
          chunk.foldl lineStep (buf ++ [c], st) from by
        simp [lineStep, hc]]
      exact chunkFold chunk (buf ++ [c]) st hb2

theorem lineStep_fold_no_nl : ∀ (chunk : List Char) (buf : List Char) (st : StreamState),
    '\n' ∉ buf → '\n' ∉ (chunk.foldl lineStep (buf, st)).1
  | [], buf, st, hb => hb
  | c :: chunk, buf, st, hb => by
    by_cases hc : c = '\n'
    · subst hc
      rw [show ('\n' :: chunk).foldl lineStep (buf, st) =
          chunk.foldl lineStep ([], processLine st buf) from by simp [lineStep]]
      exact lineStep_fold_no_nl chunk [] _ (by simp)
    · rw [show (c :: chunk).foldl lineStep (buf, st) =
          chunk.foldl lineStep (buf ++ [c], st) from by simp [lineStep, hc]]
      refine lineStep_fold_no_nl chunk (buf ++ [c]) st ?_
      intro hm
      rcases List.mem_append.mp hm with h | h
      · exact hb h
      · rw [List.mem_singleton] at h
        exact hc h.symm

theorem decodeList_append (d : DecoderState) : ∀ (a b : List Nat),
    decodeList d (a ++ b) =
      ((decodeList (decodeList d a).1 b).1,
        (decodeList d a).2 ++ (decodeList (decodeList d a).1 b).2)
  | [], b => by simp [decodeList]
  | x :: a, b => by
    show decodeList d (x :: (a ++ b)) = _
    rw [show decodeList d (x :: (a ++ b)) =
        ((decodeList (decodeByte d x).1 (a ++ b)).1,
          (decodeByte d x).2 ++ (decodeList (decodeByte d x).1 (a ++ b)).2) from by
      rw [decodeList]]
    rw [decodeList_append (decodeByte d x).1 a b]
    rw [show decodeList d (x :: a) =
        ((decodeList (decodeByte d x).1 a).1,
          (decodeByte d x).2 ++ (decodeList (decodeByte d x).1 a).2) from by
      rw [decodeList]]
    simp

theorem foldl_byteStepL : ∀ (bs : List Nat) (p : LoopState),
    bs.foldl byteStepL p =
      ⟨(decodeList p.dec bs).1,
        ((decodeList p.dec bs).2.foldl lineStep (p.buffer, p.state)).1,
        ((decodeList p.dec bs).2.foldl lineStep (p.buffer, p.state)).2⟩
  | [], p => by simp [decodeList]
  | b :: bs, p => by
    rw [List.foldl_cons, foldl_byteStepL bs (byteStepL p b)]
    rw [show decodeList p.dec (b :: bs) =
        ((decodeList (decodeByte p.dec b).1 bs).1,
          (decodeByte p.dec b).2 ++ (decodeList (decodeByte p.dec b).1 bs).2) from by
      rw [decodeList]]
    rw [show byteStepL p b =
        ⟨(decodeByte p.dec b).1,
          ((decodeByte p.dec b).2.foldl lineStep (p.buffer, p.state)).1,
          ((decodeByte p.dec b).2.foldl lineStep (p.buffer, p.state)).2⟩ from by
      unfold byteStepL
      rfl]
    simp [List.foldl_append]

theorem handleFragment_eq (p : LoopState) (v : List Nat) (hb : '\n' ∉ p.buffer) :
    (handleFragment p v).1 = v.foldl byteStepL p := by
  unfold handleFragment
  rw [foldl_byteStepL v p]
  have h := chunkFold (decodeList p.dec v).2 p.buffer p.state hb
  show (⟨(decodeList p.dec v).1,
    (splitOnNl (p.buffer ++ (decodeList p.dec v).2)).getLastD [],
    processLines p.state (splitOnNl (p.buffer ++ (decodeList p.dec v).2)).dropLast⟩
      : LoopState) = _
  rw [show (splitOnNl (p.buffer ++ (decodeList p.dec v).2)).getLastD [] =
      ((decodeList p.dec v).2.foldl lineStep (p.buffer, p.state)).1 from by
    rw [← h],
    show processLines p.state (splitOnNl (p.buffer ++ (decodeList p.dec v).2)).dropLast =
      ((decodeList p.dec v).2.foldl lineStep (p.buffer, p.state)).2 from by
    rw [← h]]

theorem handleFragment_no_nl (p : LoopState) (v : List Nat) (hb : '\n' ∉ p.buffer) :
    '\n' ∉ (handleFragment p v).1.buffer := by
  rw [handleFragment_eq p v hb, foldl_byteStepL v p]
  exact lineStep_fold_no_nl _ _ _ hb

theorem runFragments_flatten : ∀ (frags : List (List Nat)) (p : LoopState),
    '\n' ∉ p.buffer → (runFragments p frags).1 = frags.flatten.foldl byteStepL p
  | [], p, _ => by simp [runFragments]
  | v :: vs, p, hb => by
    rw [show runFragments p (v :: vs) =
        ((runFragments (handleFragment p v).1 vs).1,
          (handleFragment p v).2 ++ (runFragments (handleFragment p v).1 vs).2) from by
      rw [runFragments]]
    rw [show (v :: vs).flatten = v ++ vs.flatten from rfl, List.foldl_append]
    rw [runFragments_flatten vs (handleFragment p v).1 (handleFragment_no_nl p v hb),
      handleFragment_eq p v hb]

theorem char_valid_toNat (c : Char) :
    c.toNat < 0xD800 ∨ (0xDFFF < c.toNat ∧ c.toNat < 0x110000) := c.valid

theorem decodeList_cons (d : DecoderState) (b : Nat) (bs : List Nat) :
    decodeList d (b :: bs) =
      ((decodeList (decodeByte d b).1 bs).1,
        (decodeByte d b).2 ++ (decodeList (decodeByte d b).1 bs).2) := by
  rw [decodeList]

theorem decodeByte_eq (d : DecoderState) (b : Nat) :
    decodeByte d b = emitCps (decodeByteCp d b).1 (decodeByteCp d b).2 := rfl

theorem decodeByteCp_start {d : DecoderState} (hd : d.bytesNeeded = 0) (b : Nat) :
    decodeByteCp d b = decodeStart d b := by
  unfold decodeByteCp
  rw [if_pos hd]

theorem decodeByteCp_cont {d : DecoderState} (hd : d.bytesNeeded ≠ 0) (b : Nat) :
    decodeByteCp d b = decodeCont d b := by
  unfold decodeByteCp
  rw [if_neg hd]

theorem decodeList_one_cont (cp0 lo hi : Nat) (fd : Bool) (b1 : Nat) (bs : List Nat)
    (h1 : lo ≤ b1 ∧ b1 ≤ hi)
    (hfd : fd = false → cp0 * 64 + (b1 - 0x80) ≠ 0xFEFF) :
    decodeList ⟨cp0, 1, lo, hi, fd⟩ (b1 :: bs) =
      ((decodeList steadyDecoder bs).1,
        Char.ofNat (cp0 * 64 + (b1 - 0x80)) :: (decodeList steadyDecoder bs).2) := by
  rw [decodeList_cons]
  rw [show decodeByte ⟨cp0, 1, lo, hi, fd⟩ b1 =
      (steadyDecoder, [Char.ofNat (cp0 * 64 + (b1 - 0x80))]) from by
    rw [decodeByte_eq, decodeByteCp_cont (by simp)]
    unfold decodeCont
    rw [if_pos (by exact h1), if_pos (by rfl)]
    unfold emitCps emitCp
    rw [if_neg (by
      intro hx
      exact hfd hx.1 hx.2)]
    rfl]
  simp

theorem decodeList_two_conts (cp0 lo hi : Nat) (fd : Bool) (b1 b2 : Nat) (bs : List Nat)
    (h1 : lo ≤ b1 ∧ b1 ≤ hi) (h2 : 0x80 ≤ b2 ∧ b2 ≤ 0xBF)
    (hfd : fd = false → (cp0 * 64 + (b1 - 0x80)) * 64 + (b2 - 0x80) ≠ 0xFEFF) :
    decodeList ⟨cp0, 2, lo, hi, fd⟩ (b1 :: b2 :: bs) =
      ((decodeList steadyDecoder bs).1,
        Char.ofNat ((cp0 * 64 + (b1 - 0x80)) * 64 + (b2 - 0x80)) ::
          (decodeList steadyDecoder bs).2) := by
  rw [decodeList_cons]
  rw [show decodeByte ⟨cp0, 2, lo, hi, fd⟩ b1 =
      (⟨cp0 * 64 + (b1 - 0x80), 1, 0x80, 0xBF, fd⟩, []) from by
    rw [decodeByte_eq, decodeByteCp_cont (by simp)]
    unfold decodeCont
    rw [if_pos (by exact h1), if_neg (by simp)]
    rfl]
  rw [show ((⟨cp0 * 64 + (b1 - 0x80), 1, 0x80, 0xBF, fd⟩ : DecoderState), ([] : List Char)).1
      = ⟨cp0 * 64 + (b1 - 0x80), 1, 0x80, 0xBF, fd⟩ from rfl]
  rw [decodeList_one_cont _ _ _ fd b2 bs h2 hfd]
  simp

theorem decodeList_three_conts (cp0 lo hi : Nat) (fd : Bool) (b1 b2 b3 : Nat) (bs : List Nat)
    (h1 : lo ≤ b1 ∧ b1 ≤ hi) (h2 : 0x80 ≤ b2 ∧ b2 ≤ 0xBF) (h3 : 0x80 ≤ b3 ∧ b3 ≤ 0xBF)
    (hfd : fd = false →
      ((cp0 * 64 + (b1 - 0x80)) * 64 + (b2 - 0x80)) * 64 + (b3 - 0x80) ≠ 0xFEFF) :
    decodeList ⟨cp0, 3, lo, hi, fd⟩ (b1 :: b2 :: b3 :: bs) =
      ((decodeList steadyDecoder bs).1,
        Char.ofNat (((cp0 * 64 + (b1 - 0x80)) * 64 + (b2 - 0x80)) * 64 + (b3 - 0x80)) ::
          (decodeList steadyDecoder bs).2) := by
  rw [decodeList_cons]
  rw [show decodeByte ⟨cp0, 3, lo, hi, fd⟩ b1 =
      (⟨cp0 * 64 + (b1 - 0x80), 2, 0x80, 0xBF, fd⟩, []) from by
    rw [decodeByte_eq, decodeByteCp_cont (by simp)]
    unfold decodeCont
    rw [if_pos (by exact h1), if_neg (by simp)]
    rfl]
  rw [show ((⟨cp0 * 64 + (b1 - 0x80), 2, 0x80, 0xBF, fd⟩ : DecoderState), ([] : List Char)).1
      = ⟨cp0 * 64 + (b1 - 0x80), 2, 0x80, 0xBF, fd⟩ from rfl]
  rw [decodeList_two_conts _ _ _ fd b2 b3 bs h2 h3 hfd]
  simp

theorem decodeList_ascii (cp0 : Nat) (fd : Bool) (b : Nat) (bs : List Nat) (hb : b ≤ 0x7F) :
    decodeList ⟨cp0, 0, 0x80, 0xBF, fd⟩ (b :: bs) =
      ((decodeList (⟨cp0, 0, 0x80, 0xBF, true⟩ : DecoderState) bs).1,
        Char.ofNat b :: (decodeList (⟨cp0, 0, 0x80, 0xBF, true⟩ : DecoderState) bs).2) := by
  rw [decodeList_cons]
  rw [show decodeByte ⟨cp0, 0, 0x80, 0xBF, fd⟩ b =
      (⟨cp0, 0, 0x80, 0xBF, true⟩, [Char.ofNat b]) from by
    rw [decodeByte_eq, decodeByteCp_start (by simp)]
    unfold decodeStart
    rw [if_pos hb]
    unfold emitCps emitCp
    rw [if_neg (by
      intro hx
      omega)]
    rfl]
  simp

theorem decodeList_encodeChar (fd : Bool) (c : Char)
    (hc : fd = false → c.toNat ≠ 0xFEFF) (bs : List Nat) :
    decodeList ⟨0, 0, 0x80, 0xBF, fd⟩ (utf8EncodeChar c ++ bs) =
      ((decodeList steadyDecoder bs).1, c :: (decodeList steadyDecoder bs).2) := by
  have hv := char_valid_toNat c
  have hdd1 : c.toNat / 4096 = c.toNat / 64 / 64 := by
    rw [Nat.div_div_eq_div_mul]
  have hdd2 : c.toNat / 0x40000 = c.toNat / 4096 / 64 := by
    rw [Nat.div_div_eq_div_mul]
  unfold utf8EncodeChar
  by_cases h1 : c.toNat < 0x80
  · rw [if_pos h1]
    show decodeList _ (c.toNat :: bs) = _
    rw [decodeList_ascii 0 fd c.toNat bs (by omega), Char.ofNat_toNat]
    rfl
  by_cases h2 : c.toNat < 0x800
  · rw [if_neg h1, if_pos h2]
    show decodeList _ ((0xC0 + c.toNat / 64) :: ((0x80 + c.toNat % 64) :: bs)) = _
    rw [decodeList_cons]
    rw [show decodeByte ⟨0, 0, 0x80, 0xBF, fd⟩ (0xC0 + c.toNat / 64) =
        (⟨0xC0 + c.toNat / 64 - 0xC0, 1, 0x80, 0xBF, fd⟩, []) from by
      rw [decodeByte_eq, decodeByteCp_start (by simp)]
      unfold decodeStart
      rw [if_neg (by omega), if_pos (by omega)]
      rfl]
    rw [show ((⟨0xC0 + c.toNat / 64 - 0xC0, 1, 0x80, 0xBF, fd⟩ : DecoderState),
        ([] : List Char)).1 = ⟨0xC0 + c.toNat / 64 - 0xC0, 1, 0x80, 0xBF, fd⟩ from rfl]
    rw [decodeList_one_cont _ _ _ fd _ bs ⟨by omega, by omega⟩ (by
      intro hx
      rw [show (0xC0 + c.toNat / 64 - 0xC0) * 64 + (0x80 + c.toNat % 64 - 0x80) = c.toNat
        from by omega]
      exact hc hx)]
    rw [show (0xC0 + c.toNat / 64 - 0xC0) * 64 + (0x80 + c.toNat % 64 - 0x80) = c.toNat
      from by omega, Char.ofNat_toNat]
    simp
  by_cases h3 : c.toNat < 0x10000
  · rw [if_neg h1, if_neg h2, if_pos h3]
    show decodeList _
      ((0xE0 + c.toNat / 4096) :: ((0x80 + c.toNat / 64 % 64) ::
        ((0x80 + c.toNat % 64) :: bs))) = _
    rw [decodeList_cons]
    by_cases hq0 : c.toNat / 4096 = 0
    · rw [show decodeByte ⟨0, 0, 0x80, 0xBF, fd⟩ (0xE0 + c.toNat / 4096) =
          (⟨0, 2, 0xA0, 0xBF, fd⟩, []) from by
        rw [decodeByte_eq, decodeByteCp_start (by simp)]
        unfold decodeStart
        rw [if_neg (by omega), if_neg (by omega), if_pos (by omega)]
        rfl]
      rw [show ((⟨0, 2, 0xA0, 0xBF, fd⟩ : DecoderState), ([] : List Char)).1 =
        ⟨0, 2, 0xA0, 0xBF, fd⟩ from rfl]
      rw [decodeList_two_conts _ _ _ fd _ _ bs ⟨by omega, by omega⟩ ⟨by omega, by omega⟩ (by
        intro hx
        rw [show (0 * 64 + (0x80 + c.toNat / 64 % 64 - 0x80)) * 64 +
          (0x80 + c.toNat % 64 - 0x80) = c.toNat from by omega]
        exact hc hx)]
      rw [show (0 * 64 + (0x80 + c.toNat / 64 % 64 - 0x80)) * 64 +
        (0x80 + c.toNat % 64 - 0x80) = c.toNat from by omega, Char.ofNat_toNat]
      simp
    by_cases hqd : c.toNat / 4096 = 0xD
    · rw [show decodeByte ⟨0, 0, 0x80, 0xBF, fd⟩ (0xE0 + c.toNat / 4096) =
          (⟨0xD, 2, 0x80, 0x9F, fd⟩, []) from by
        rw [decodeByte_eq, decodeByteCp_start (by simp)]
        unfold decodeStart
        rw [if_neg (by omega), if_neg (by omega), if_neg (by omega), if_pos (by omega)]
        rfl]
      rw [show ((⟨0xD, 2, 0x80, 0x9F, fd⟩ : DecoderState), ([] : List Char)).1 =
        ⟨0xD, 2, 0x80, 0x9F, fd⟩ from rfl]
      rw [decodeList_two_conts _ _ _ fd _ _ bs ⟨by omega, by omega⟩ ⟨by omega, by omega⟩ (by
        intro hx
        rw [show (0xD * 64 + (0x80 + c.toNat / 64 % 64 - 0x80)) * 64 +
          (0x80 + c.toNat % 64 - 0x80) = c.toNat from by omega]
        exact hc hx)]
      rw [show (0xD * 64 + (0x80 + c.toNat / 64 % 64 - 0x80)) * 64 +
        (0x80 + c.toNat % 64 - 0x80) = c.toNat from by omega, Char.ofNat_toNat]
      simp
    · rw [show decodeByte ⟨0, 0, 0x80, 0xBF, fd⟩ (0xE0 + c.toNat / 4096) =
          (⟨0xE0 + c.toNat / 4096 - 0xE0, 2, 0x80, 0xBF, fd⟩, []) from by
        rw [decodeByte_eq, decodeByteCp_start (by simp)]
        unfold decodeStart
        rw [if_neg (by omega), if_neg (by omega)]
        rw [if_neg (by omega), if_neg (by omega), if_pos (by omega)]
        rfl]
      rw [show ((⟨0xE0 + c.toNat / 4096 - 0xE0, 2, 0x80, 0xBF, fd⟩ : DecoderState),
        ([] : List Char)).1 = ⟨0xE0 + c.toNat / 4096 - 0xE0, 2, 0x80, 0xBF, fd⟩ from rfl]
      rw [decodeList_two_conts _ _ _ fd _ _ bs ⟨by omega, by omega⟩ ⟨by omega, by omega⟩ (by
        intro hx
        rw [show ((0xE0 + c.toNat / 4096 - 0xE0) * 64 + (0x80 + c.toNat / 64 % 64 - 0x80))
          * 64 + (0x80 + c.toNat % 64 - 0x80) = c.toNat from by omega]
        exact hc hx)]
      rw [show ((0xE0 + c.toNat / 4096 - 0xE0) * 64 + (0x80 + c.toNat / 64 % 64 - 0x80))
        * 64 + (0x80 + c.toNat % 64 - 0x80) = c.toNat from by omega, Char.ofNat_toNat]
      simp
  · rw [if_neg h1, if_neg h2, if_neg h3]
    show decodeList _
      ((0xF0 + c.toNat / 0x40000) :: ((0x80 + c.toNat / 4096 % 64) ::
        ((0x80 + c.toNat / 64 % 64) :: ((0x80 + c.toNat % 64) :: bs)))) = _
    rw [decodeList_cons]
    by_cases hq0 : c.toNat / 0x40000 = 0
    · rw [show decodeByte ⟨0, 0, 0x80, 0xBF, fd⟩ (0xF0 + c.toNat / 0x40000) =
          (⟨0, 3, 0x90, 0xBF, fd⟩, []) from by
        rw [decodeByte_eq, decodeByteCp_start (by simp)]
        unfold decodeStart
        rw [if_neg (by omega), if_neg (by omega), if_neg (by omega)]
        rw [if_neg (by omega), if_neg (by omega), if_pos (by omega)]
        rfl]
      rw [show ((⟨0, 3, 0x90, 0xBF, fd⟩ : DecoderState), ([] : List Char)).1 =
        ⟨0, 3, 0x90, 0xBF, fd⟩ from rfl]
      rw [decodeList_three_conts _ _ _ fd _ _ _ bs ⟨by omega, by omega⟩
        ⟨by omega, by omega⟩ ⟨by omega, by omega⟩ (by
        intro hx
        rw [show ((0 * 64 + (0x80 + c.toNat / 4096 % 64 - 0x80)) * 64 +
          (0x80 + c.toNat / 64 % 64 - 0x80)) * 64 + (0x80 + c.toNat % 64 - 0x80) = c.toNat
          from by omega]
        exact hc hx)]
      rw [show ((0 * 64 + (0x80 + c.toNat / 4096 % 64 - 0x80)) * 64 +
        (0x80 + c.toNat / 64 % 64 - 0x80)) * 64 + (0x80 + c.toNat % 64 - 0x80) = c.toNat
        from by omega, Char.ofNat_toNat]
      simp
    by_cases hq4 : c.toNat / 0x40000 = 4
    · rw [show decodeByte ⟨0, 0, 0x80, 0xBF, fd⟩ (0xF0 + c.toNat / 0x40000) =
          (⟨4, 3, 0x80, 0x8F, fd⟩, []) from by
        rw [decodeByte_eq, decodeByteCp_start (by simp)]
        unfold decodeStart
        rw [if_neg (by omega), if_neg (by omega), if_neg (by omega)]
        rw [if_neg (by omega), if_neg (by omega), if_neg (by omega), if_pos (by omega)]
        rfl]
      rw [show ((⟨4, 3, 0x80, 0x8F, fd⟩ : DecoderState), ([] : List Char)).1 =
        ⟨4, 3, 0x80, 0x8F, fd⟩ from rfl]
      rw [decodeList_three_conts _ _ _ fd _ _ _ bs ⟨by omega, by omega⟩
        ⟨by omega, by omega⟩ ⟨by omega, by omega⟩ (by
        intro hx
        rw [show ((4 * 64 + (0x80 + c.toNat / 4096 % 64 - 0x80)) * 64 +
          (0x80 + c.toNat / 64 % 64 - 0x80)) * 64 + (0x80 + c.toNat % 64 - 0x80) = c.toNat
          from by omega]
        exact hc hx)]
      rw [show ((4 * 64 + (0x80 + c.toNat / 4096 % 64 - 0x80)) * 64 +
        (0x80 + c.toNat / 64 % 64 - 0x80)) * 64 + (0x80 + c.toNat % 64 - 0x80) = c.toNat
        from by omega, Char.ofNat_toNat]
      simp
    · rw [show decodeByte ⟨0, 0, 0x80, 0xBF, fd⟩ (0xF0 + c.toNat / 0x40000) =
          (⟨0xF0 + c.toNat / 0x40000 - 0xF0, 3, 0x80, 0xBF, fd⟩, []) from by
        rw [decodeByte_eq, decodeByteCp_start (by simp)]
        unfold decodeStart
        rw [if_neg (by omega), if_neg (by omega), if_neg (by omega)]
        rw [if_neg (by omega), if_neg (by omega)]
        rw [if_neg (by omega), if_neg (by omega), if_pos (by omega)]
        rfl]
      rw [show ((⟨0xF0 + c.toNat / 0x40000 - 0xF0, 3, 0x80, 0xBF, fd⟩ : DecoderState),
        ([] : List Char)).1 = ⟨0xF0 + c.toNat / 0x40000 - 0xF0, 3, 0x80, 0xBF, fd⟩ from rfl]
      rw [decodeList_three_conts _ _ _ fd _ _ _ bs ⟨by omega, by omega⟩
        ⟨by omega, by omega⟩ ⟨by omega, by omega⟩ (by
        intro hx
        rw [show (((0xF0 + c.toNat / 0x40000 - 0xF0) * 64 +
          (0x80 + c.toNat / 4096 % 64 - 0x80)) * 64 +
          (0x80 + c.toNat / 64 % 64 - 0x80)) * 64 + (0x80 + c.toNat % 64 - 0x80) = c.toNat
          from by omega]
        exact hc hx)]
      rw [show (((0xF0 + c.toNat / 0x40000 - 0xF0) * 64 +
        (0x80 + c.toNat / 4096 % 64 - 0x80)) * 64 +
        (0x80 + c.toNat / 64 % 64 - 0x80)) * 64 + (0x80 + c.toNat % 64 - 0x80) = c.toNat
        from by omega, Char.ofNat_toNat]
      simp

theorem decodeList_encode_steady : ∀ (s : List Char),
    decodeList steadyDecoder (utf8Encode s) = (steadyDecoder, s)
  | [] => rfl
  | c :: s => by
    rw [show utf8Encode (c :: s) = utf8EncodeChar c ++ utf8Encode s from by
      simp [utf8Encode]]
    have h := decodeList_encodeChar true c (by simp) (utf8Encode s)
    rw [show (⟨0, 0, 0x80, 0xBF, true⟩ : DecoderState) = steadyDecoder from rfl] at h
    rw [h, decodeList_encode_steady s]

theorem decodeList_encode_fresh (c : Char) (s : List Char) (hc : c.toNat ≠ 0xFEFF) :
    decodeList freshDecoder (utf8Encode (c :: s)) = (steadyDecoder, c :: s) := by
  rw [show utf8Encode (c :: s) = utf8EncodeChar c ++ utf8Encode s from by
    simp [utf8Encode]]
  have h := decodeList_encodeChar false c (fun _ => hc) (utf8Encode s)
  rw [show (⟨0, 0, 0x80, 0xBF, false⟩ : DecoderState) = freshDecoder from rfl] at h
  rw [h, decodeList_encode_steady s]

theorem foldl_lineStep_no_nl_append (a : List Char) : ∀ (buf : List Char) (st : StreamState),
    '\n' ∉ a → a.foldl lineStep (buf, st) = (buf ++ a, st) := by
  induction a with
  | nil => intro buf st _; simp
  | cons c a ih =>
    intro buf st h
    have hc : ¬ c = '\n' := fun hc => h (by simp [hc])
    rw [List.foldl_cons, show lineStep (buf, st) c = (buf ++ [c], st) from by
      simp [lineStep, hc], ih (buf ++ [c]) st (fun hm => h (by simp [hm]))]
    simp

theorem processLine_nil (st : StreamState) : processLine st [] = st := rfl

theorem recordJson_wf (e : StreamEvent) (he : eventWF e = true) :
    Json.wf (recordJson e) = true := by
  cases e with
  | sources chunks =>
    have hch : Json.wfItems chunks = true := by simpa [eventWF] using he
    show (Json.wf (.str "sources".data) && (Json.wf (.arr chunks) && true)) = true
    rw [show Json.wf (.arr chunks) = Json.wfItems chunks from rfl, hch]
    rfl
  | token content => rfl
  | error message => rfl
  | done => rfl

theorem recordJson_shape (e : StreamEvent) : ∃ kvs, recordJson e = Json.obj kvs := by
  cases e with
  | sources chunks => exact ⟨_, rfl⟩
  | token content => exact ⟨_, rfl⟩
  | error message => exact ⟨_, rfl⟩
  | done => exact ⟨_, rfl⟩

theorem jsTrim_obj (mid : List Char) : jsTrim ('{' :: mid ++ ['}']) = '{' :: mid ++ ['}'] := by
  unfold jsTrim
  rw [show ('{' :: mid ++ ['}'] : List Char).dropWhile isJsTrimWs = '{' :: mid ++ ['}'] from by
    rw [show ('{' :: mid ++ ['}'] : List Char) = '{' :: (mid ++ ['}']) from by simp,
      List.dropWhile_cons_of_neg (by decide)]]
  rw [show ('{' :: mid ++ ['}'] : List Char).reverse = '}' :: ('{' :: mid).reverse from by
    rw [List.reverse_append]
    rfl]
  rw [List.dropWhile_cons_of_neg (by decide)]
  rw [show ('}' :: ('{' :: mid).reverse).reverse = '{' :: mid ++ ['}'] from by
    rw [List.reverse_cons, List.reverse_reverse]]

theorem processLine_wireEvent (st : StreamState) (e : StreamEvent) (he : eventWF e = true) :
    processLine st ("data: ".data ++ (recordJson e).render) = applyEvent st (recordJson e) := by
  unfold processLine lineEffect
  rw [if_neg (by
    rw [List.isPrefixOf_iff_prefix]
    simp [List.prefix_append])]
  rw [show ("data: ".data ++ (recordJson e).render).drop 6 = (recordJson e).render from by
    rw [show (6 : Nat) = ("data: ".data).length from rfl, List.drop_left]]
  obtain ⟨kvs, hkvs⟩ := recordJson_shape e
  rw [hkvs]
  rw [show Json.render (.obj kvs) = '{' :: Json.renderFields kvs ++ ['}'] from rfl]
  rw [jsTrim_obj]
  rw [if_neg (by simp)]
  have hp := Json.parse_render_full (recordJson_wf e he)
  rw [hkvs] at hp
  rw [show Json.render (.obj kvs) = '{' :: Json.renderFields kvs ++ ['}'] from rfl] at hp
  rw [hp]
  rfl

theorem wireEvent_fold (e : StreamEvent) (st : StreamState) (he : eventWF e = true)
    (s : List Char) :
    (wireEvent e ++ s).foldl lineStep ([], st) =
      s.foldl lineStep ([], applyEvent st (recordJson e)) := by
  rw [show wireEvent e ++ s =
      ("data: ".data ++ (recordJson e).render) ++ ('\n' :: ('\n' :: s)) from by
    simp [wireEvent]]
  rw [List.foldl_append]
  rw [foldl_lineStep_no_nl_append _ [] st (by
    intro hm
    rcases List.mem_append.mp hm with h | h
    · exact absurd h (by decide)
    · exact render_no_nl (recordJson e) (recordJson_wf e he) h)]
  rw [List.foldl_cons, show lineStep ([] ++ ("data: ".data ++ (recordJson e).render), st) '\n' =
    ([], processLine st ("data: ".data ++ (recordJson e).render)) from by
    simp [lineStep]]
  rw [List.foldl_cons, show lineStep (([] : List Char), processLine st
      ("data: ".data ++ (recordJson e).render)) '\n' =
    ([], processLine (processLine st ("data: ".data ++ (recordJson e).render)) []) from by
    simp [lineStep]]
  rw [processLine_nil, processLine_wireEvent st e he]

theorem wireStream_fold : ∀ (events : List StreamEvent) (st : StreamState),
    eventsWF events = true →
    (wireStream events).foldl lineStep ([], st) = ([], runEvents st events)
  | [], st, _ => rfl
  | e :: events, st, he => by
    have he2 : eventWF e = true ∧ eventsWF events = true := by
      simpa [eventsWF, Bool.and_eq_true] using he
    rw [show wireStream (e :: events) = wireEvent e ++ wireStream events from by
      simp [wireStream]]
    rw [wireEvent_fold e st he2.1 (wireStream events),
      wireStream_fold events (applyEvent st (recordJson e)) he2.2]
    rfl

theorem runEvents_text : ∀ (events : List StreamEvent) (st : StreamState),
    (runEvents st events).streamedText = st.streamedText ++ tokensConcat events
  | [], st => by simp [runEvents, tokensConcat]
  | e :: events, st => by
    rw [show runEvents st (e :: events) =
      runEvents (applyEvent st (recordJson e)) events from rfl]
    rw [runEvents_text events (applyEvent st (recordJson e))]
    cases e with
    | sources chunks =>
      rw [@applyEvent_sources _ (recordJson (.sources chunks)) rfl]
      rfl
    | token content =>
      rw [@applyEvent_token _ (recordJson (.token content)) rfl]
      show st.streamedText ++ jsToString (Json.getField _ "content".data) ++
        tokensConcat events = st.streamedText ++ (content ++ tokensConcat events)
      rw [show jsToString ((recordJson (.token content)).getField "content".data) = content
        from rfl]
      simp
    | error message =>
      rw [@applyEvent_error _ (recordJson (.error message)) rfl]
      rfl
    | done =>
      rw [@applyEvent_other _ (recordJson .done) rfl rfl rfl]
      rfl

theorem queryFinal_ok_clean (prev : StreamState) (frags : List (List Nat)) :
    queryFinal prev (.ok frags .clean) =
      { (runFragments ⟨freshDecoder, [], resetState⟩ frags).1.state with
        isStreaming := false } := by
  unfold queryFinal
  simp only [querySetStates]
  rw [List.getLastD_concat]

theorem runFragments_state (events : List StreamEvent) (frags : List (List Nat))
    (hwf : eventsWF events = true)
    (hsplit : frags.flatten = utf8Encode (wireStream events)) :
    (runFragments ⟨freshDecoder, [], resetState⟩ frags).1.state =
      runEvents resetState events := by
  rw [runFragments_flatten frags _ (by simp), hsplit, foldl_byteStepL]
  show ((decodeList freshDecoder (utf8Encode (wireStream events))).2.foldl lineStep
    ([], resetState)).2 = _
  cases events with
  | nil => rfl
  | cons e es =>
    obtain ⟨t, ht⟩ : ∃ t, wireStream (e :: es) = 'd' :: t := ⟨_, rfl⟩
    rw [ht, decodeList_encode_fresh 'd' t (by decide)]
    show ((('d' :: t)).foldl lineStep ([], resetState)).2 = _
    rw [← ht, wireStream_fold (e :: es) resetState hwf]

/-- Claim C1: for any event sequence on the wire and any way of splitting its
UTF-8 byte stream into fragments — including splits inside a line or inside a
multi-byte character — the query loop reaches the same final state, namely
the state obtained by dispatching the records in order (with `isStreaming`
cleared at the end), and its final `streamedText` is exactly the
concatenation, in stream order, of the `content` fields of the `token`
records. -/
theorem claim_C1 (events : List StreamEvent) (frags : List (List Nat)) (prev : StreamState)
    (hwf : eventsWF events = true)
    (hsplit : frags.flatten = utf8Encode (wireStream events)) :
    queryFinal prev (.ok frags .clean) =
      { runEvents resetState events with isStreaming := false } ∧
    (queryFinal prev (.ok frags .clean)).streamedText = tokensConcat events := by
  have h1 : queryFinal prev (.ok frags .clean) =
      { runEvents resetState events with isStreaming := false } := by
    rw [queryFinal_ok_clean, runFragments_state events frags hwf hsplit]
  refine ⟨h1, ?_⟩
  rw [h1]
  show (runEvents resetState events).streamedText = _
  rw [runEvents_text]
  rfl

set_option maxRecDepth 20000 in
/-- Claim C1, witness: the concrete stream `c1Events` (a sources record, two
multi-byte tokens and done), with its wire bytes split at an offset inside the
two-byte encoding of é, reassembles to the dispatched final state, whose
`streamedText` is the concatenation of the token contents. -/
theorem claim_C1_witness :
    queryFinal resetState (.ok c1Frags .clean) =
      { runEvents resetState c1Events with isStreaming := false } ∧
    (queryFinal resetState (.ok c1Frags .clean)).streamedText = tokensConcat c1Events :=
  claim_C1 c1Events c1Frags resetState (by decide) (by decide)
